import Mathlib

/-
Verification of the territory-map boundary pipeline.

This file gives a shallow embedding of the two core scripts of the
repository, `scripts/simplify_boundaries.py` and
`scripts/extract_boundaries.py`, and proves (or refutes) the
specification claims about them.

Modelling conventions:
* A polygon vertex is an integer pixel pair (the persisted dataset stores
  `[[x:int, y:int], ...]`).
* Python floats are modelled by exact rationals (ideal-real semantics).
* `distance_point_line` in the source returns a nonnegative real distance
  (using `math.sqrt`).  Inside one call of `rdp` every comparison
  (`d > dmax`, `dmax > epsilon`) compares nonnegative quantities, so the
  comparisons are equivalent to comparisons of squared distances as long
  as `epsilon ≥ 0` (the only regime the specification speaks about, and
  the only one in which the Python recursion terminates).  The embedding
  therefore works with the squared distance `distance_point_line_sq` and
  compares against `epsilon ^ 2`.
-/

abbrev Pt : Type := ℤ × ℤ

/-- Squared value of `distance_point_line(point, start, end)` from
`scripts/simplify_boundaries.py` (lines 9-15): the Euclidean distance when
`start == end`, otherwise `|cross| / |end - start|`; here both branches are
squared, which removes the `math.sqrt`. -/
def distance_point_line_sq (point s e : Pt) : ℚ :=
  if s = e then
    ((point.1 - s.1) ^ 2 + (point.2 - s.2) ^ 2 : ℤ)
  else
    (((e.2 - s.2) * point.1 - (e.1 - s.1) * point.2 + e.1 * s.2 - e.2 * s.1 : ℤ) ^ 2 : ℚ) /
      (((e.2 - s.2) ^ 2 + (e.1 - s.1) ^ 2 : ℤ) : ℚ)

/-- Head of a point list (`points[0]`); total, with an irrelevant default. -/
def headPt : List Pt → Pt
  | [] => (0, 0)
  | p :: _ => p

/-- Last element of a point list (`points[end]`); total, with an irrelevant
default. -/
def lastPt : List Pt → Pt
  | [] => (0, 0)
  | [p] => p
  | _ :: q :: ps => lastPt (q :: ps)

@[simp] lemma headPt_cons (p : Pt) (l : List Pt) : headPt (p :: l) = p := rfl

@[simp] lemma lastPt_singleton (p : Pt) : lastPt [p] = p := rfl

lemma lastPt_cons_of_ne_nil (p : Pt) {l : List Pt} (h : l ≠ []) :
    lastPt (p :: l) = lastPt l := by
  cases l with
  | nil => exact absurd rfl h
  | cons q t => rfl

lemma lastPt_concat (a : Pt) : ∀ l : List Pt, lastPt (l ++ [a]) = a := by
  intro l
  induction l with
  | nil => rfl
  | cons p t ih =>
    rw [List.cons_append, lastPt_cons_of_ne_nil p (by simp)]
    exact ih

lemma lastPt_append_of_ne_nil (l : List Pt) {r : List Pt} (h : r ≠ []) :
    lastPt (l ++ r) = lastPt r := by
  induction l with
  | nil => rfl
  | cons p t ih =>
    rw [List.cons_append, lastPt_cons_of_ne_nil p (by simp [h]), ih]

lemma dropLast_cons_of_ne_nil (p : Pt) {l : List Pt} (h : l ≠ []) :
    (p :: l).dropLast = p :: l.dropLast := by
  cases l with
  | nil => exact absurd rfl h
  | cons q t => rfl

lemma dropLast_append_of_ne_nil (l : List Pt) {r : List Pt} (h : r ≠ []) :
    (l ++ r).dropLast = l ++ r.dropLast := by
  induction l with
  | nil => rfl
  | cons p t ih =>
    rw [List.cons_append, dropLast_cons_of_ne_nil p (by simp [h]), ih, List.cons_append]

lemma dropLast_append_lastPt : ∀ l : List Pt, l ≠ [] → l.dropLast ++ [lastPt l] = l := by
  intro l
  induction l with
  | nil => intro h; exact absurd rfl h
  | cons p t ih =>
    intro _
    cases t with
    | nil => rfl
    | cons q u =>
      rw [dropLast_cons_of_ne_nil p (by simp), lastPt_cons_of_ne_nil p (by simp),
        List.cons_append, ih (by simp)]

/-- Every list with at least two elements splits as
head, interior (`l.tail.dropLast`), last. -/
lemma eq_head_interior_last (l : List Pt) (h : 2 ≤ l.length) :
    l = headPt l :: (l.tail.dropLast ++ [lastPt l]) := by
  cases l with
  | nil => simp at h
  | cons p t =>
    have ht : t ≠ [] := by
      intro he; rw [he] at h; simp at h
    rw [headPt_cons, lastPt_cons_of_ne_nil p ht]
    simp only [List.tail_cons, List.cons.injEq, true_and]
    exact (dropLast_append_lastPt t ht).symm

/-- The scanning loop of `rdp` (lines 21-29 of
`scripts/simplify_boundaries.py`):

    dmax = 0; index = 0
    for i in range(1, end):
        d = distance_point_line(points[i], points[0], points[end])
        if d > dmax: index = i; dmax = d

`scanMax s e l i (index, dmax)` runs the loop body over the interior
points `l`, where `i` is the Python loop counter and `(index, dmax)` the
accumulated state; distances are compared in squared form. -/
def scanMax (s e : Pt) : List Pt → ℕ → ℕ × ℚ → ℕ × ℚ
  | [], _, acc => acc
  | p :: ps, i, acc =>
    if acc.2 < distance_point_line_sq p s e then
      scanMax s e ps (i + 1) (i, distance_point_line_sq p s e)
    else
      scanMax s e ps (i + 1) acc

/-- Characterisation of the scanning loop: either no element ever beat the
initial maximum, or the list splits around the first element attaining the
overall maximum. -/
lemma scanMax_spec (s e : Pt) :
    ∀ (l : List Pt) (i idx0 : ℕ) (m0 : ℚ),
      (scanMax s e l i (idx0, m0) = (idx0, m0) ∧
        ∀ y ∈ l, distance_point_line_sq y s e ≤ m0) ∨
      (∃ pre x suf, l = pre ++ x :: suf ∧
        scanMax s e l i (idx0, m0) = (i + pre.length, distance_point_line_sq x s e) ∧
        m0 < distance_point_line_sq x s e ∧
        (∀ y ∈ pre, distance_point_line_sq y s e < distance_point_line_sq x s e) ∧
        (∀ y ∈ suf, distance_point_line_sq y s e ≤ distance_point_line_sq x s e)) := by
  intro l
  induction l with
  | nil =>
    intro i idx0 m0
    left
    exact ⟨rfl, by simp⟩
  | cons p ps ih =>
    intro i idx0 m0
    by_cases hp : m0 < distance_point_line_sq p s e
    · have hstep : scanMax s e (p :: ps) i (idx0, m0) =
          scanMax s e ps (i + 1) (i, distance_point_line_sq p s e) := by
        simp [scanMax, hp]
      rcases ih (i + 1) i (distance_point_line_sq p s e) with
        ⟨heq, hall⟩ | ⟨pre, x, suf, hl, heq, hm, hpre, hsuf⟩
      · right
        refine ⟨[], p, ps, by simp, ?_, hp, by simp, hall⟩
        rw [hstep, heq]; simp
      · right
        refine ⟨p :: pre, x, suf, by simp [hl], ?_, lt_trans hp hm, ?_, hsuf⟩
        · rw [hstep, heq]
          simp only [List.length_cons, Prod.mk.injEq, and_true]
          omega
        · intro y hy
          rcases List.mem_cons.mp hy with hy | hy
          · rw [hy]; exact hm
          · exact hpre y hy
    · have hstep : scanMax s e (p :: ps) i (idx0, m0) = scanMax s e ps (i + 1) (idx0, m0) := by
        simp [scanMax, hp]
      rcases ih (i + 1) idx0 m0 with
        ⟨heq, hall⟩ | ⟨pre, x, suf, hl, heq, hm, hpre, hsuf⟩
      · left
        refine ⟨by rw [hstep, heq], ?_⟩
        intro y hy
        rcases List.mem_cons.mp hy with hy | hy
        · rw [hy]; exact not_lt.mp hp
        · exact hall y hy
      · right
        refine ⟨p :: pre, x, suf, by simp [hl], ?_, hm, ?_, hsuf⟩
        · rw [hstep, heq]
          simp only [List.length_cons, Prod.mk.injEq, and_true]
          omega
        · intro y hy
          rcases List.mem_cons.mp hy with hy | hy
          · rw [hy]; exact lt_of_le_of_lt (not_lt.mp hp) hm
          · exact hpre y hy

/-- Every scanned element is bounded by the final running maximum. -/
lemma scanMax_le (s e : Pt) (l : List Pt) (i idx0 : ℕ) (m0 : ℚ) :
    ∀ y ∈ l, distance_point_line_sq y s e ≤ (scanMax s e l i (idx0, m0)).2 := by
  rcases scanMax_spec s e l i idx0 m0 with
    ⟨heq, hall⟩ | ⟨pre, x, suf, hl, heq, _hm, hpre, hsuf⟩
  · intro y hy; rw [heq]; exact hall y hy
  · intro y hy
    rw [heq]
    rw [hl] at hy
    rcases List.mem_append.mp hy with hy | hy
    · exact le_of_lt (hpre y hy)
    · rcases List.mem_cons.mp hy with hy | hy
      · rw [hy]
      · exact hsuf y hy

/-- If the loop ends with a strictly positive maximum (as it does whenever
`dmax > epsilon ≥ 0` holds), the winning index is an actual interior
position: at least `1` and at most the interior length. -/
lemma scanMax_idx_le (s e : Pt) (l : List Pt)
    (h : 0 < (scanMax s e l 1 (0, 0)).2) :
    1 ≤ (scanMax s e l 1 (0, 0)).1 ∧ (scanMax s e l 1 (0, 0)).1 ≤ l.length := by
  rcases scanMax_spec s e l 1 0 0 with
    ⟨heq, _⟩ | ⟨pre, x, suf, hl, heq, _, _, _⟩
  · rw [heq] at h; exact absurd h (by simp)
  · rw [heq]
    constructor
    · simp
    · simp only [hl, List.length_append, List.length_cons]
      omega

/-- The `rdp` function from `scripts/simplify_boundaries.py` (lines 17-40):

    def rdp(points, epsilon):
        if len(points) < 3: return points
        dmax = 0; index = 0; end = len(points) - 1
        for i in range(1, end):
            d = distance_point_line(points[i], points[0], points[end])
            if d > dmax: index = i; dmax = d
        if dmax > epsilon:
            rec_results1 = rdp(points[:index+1], epsilon)
            rec_results2 = rdp(points[index:], epsilon)
            return rec_results1[:-1] + rec_results2
        else:
            return [points[0], points[end]]

Distances are compared in squared form (equivalent for `epsilon ≥ 0`). -/
def rdp (points : List Pt) (eps : ℚ) : List Pt :=
  if h3 : points.length < 3 then points
  else
    if hd : eps ^ 2 < (scanMax (headPt points) (lastPt points) points.tail.dropLast 1 (0, 0)).2 then
      (rdp (points.take ((scanMax (headPt points) (lastPt points) points.tail.dropLast 1 (0, 0)).1 + 1)) eps).dropLast
        ++ rdp (points.drop ((scanMax (headPt points) (lastPt points) points.tail.dropLast 1 (0, 0)).1)) eps
    else
      [headPt points, lastPt points]
termination_by points.length
decreasing_by
  · have h0 : 0 < (scanMax (headPt points) (lastPt points) points.tail.dropLast 1 (0, 0)).2 :=
      lt_of_le_of_lt (sq_nonneg eps) hd
    have hb := scanMax_idx_le (headPt points) (lastPt points) points.tail.dropLast h0
    have hlen : points.tail.dropLast.length = points.length - 2 := by
      simp only [List.length_dropLast, List.length_tail]
      omega
    simp only [List.length_take]
    omega
  · have h0 : 0 < (scanMax (headPt points) (lastPt points) points.tail.dropLast 1 (0, 0)).2 :=
      lt_of_le_of_lt (sq_nonneg eps) hd
    have hb := scanMax_idx_le (headPt points) (lastPt points) points.tail.dropLast h0
    have hlen : points.tail.dropLast.length = points.length - 2 := by
      simp only [List.length_dropLast, List.length_tail]
      omega
    simp only [List.length_drop]
    omega

/-- Fuel-indexed companion of `rdp`, structurally recursive; used for proofs
by induction and for evaluating `rdp` on concrete inputs.  It agrees with
`rdp` whenever the fuel is at least the list length (`rdp_eq_rdpF`). -/
def rdpF : ℕ → List Pt → ℚ → List Pt
  | 0, points, _ => points
  | fuel + 1, points, eps =>
    if points.length < 3 then points
    else
      if eps ^ 2 < (scanMax (headPt points) (lastPt points) points.tail.dropLast 1 (0, 0)).2 then
        (rdpF fuel (points.take ((scanMax (headPt points) (lastPt points) points.tail.dropLast 1 (0, 0)).1 + 1)) eps).dropLast
          ++ rdpF fuel (points.drop ((scanMax (headPt points) (lastPt points) points.tail.dropLast 1 (0, 0)).1)) eps
      else
        [headPt points, lastPt points]

lemma take_interior (x : Pt) (pre rest : List Pt) :
    (pre ++ x :: rest).take (pre.length + 1) = pre ++ [x] := by
  rw [show pre ++ x :: rest = (pre ++ [x]) ++ rest by simp]
  rw [show pre.length + 1 = (pre ++ [x]).length by simp]
  exact List.take_left _ _

lemma take_decomp (s x : Pt) (pre rest : List Pt) :
    (s :: (pre ++ x :: rest)).take (1 + pre.length + 1) = s :: (pre ++ [x]) := by
  rw [show 1 + pre.length + 1 = pre.length + 1 + 1 by omega, List.take_succ_cons,
    take_interior]

lemma drop_decomp (s x : Pt) (pre rest : List Pt) :
    (s :: (pre ++ x :: rest)).drop (1 + pre.length) = x :: rest := by
  rw [show 1 + pre.length = pre.length + 1 by omega, List.drop_succ_cons,
    List.drop_left]

/-- In the recursive branch of `rdp`/`rdpF` the input list splits around the
first interior point of maximal distance from the chord. -/
lemma split_decomp (points : List Pt) (eps : ℚ)
    (h3 : ¬ points.length < 3)
    (hd : eps ^ 2 < (scanMax (headPt points) (lastPt points) points.tail.dropLast 1 (0, 0)).2) :
    ∃ pre x suf,
      points = headPt points :: ((pre ++ x :: suf) ++ [lastPt points]) ∧
      scanMax (headPt points) (lastPt points) points.tail.dropLast 1 (0, 0)
        = (1 + pre.length, distance_point_line_sq x (headPt points) (lastPt points)) ∧
      eps ^ 2 < distance_point_line_sq x (headPt points) (lastPt points) ∧
      (∀ y ∈ pre, distance_point_line_sq y (headPt points) (lastPt points) <
        distance_point_line_sq x (headPt points) (lastPt points)) ∧
      (∀ y ∈ suf, distance_point_line_sq y (headPt points) (lastPt points) ≤
        distance_point_line_sq x (headPt points) (lastPt points)) ∧
      points.take (1 + pre.length + 1) = headPt points :: (pre ++ [x]) ∧
      points.drop (1 + pre.length) = x :: (suf ++ [lastPt points]) := by
  rcases scanMax_spec (headPt points) (lastPt points) points.tail.dropLast 1 0 0 with
    ⟨heq, _⟩ | ⟨pre, x, suf, hl, heq, hm, hpre, hsuf⟩
  · rw [heq] at hd
    exact absurd hd (by simpa using sq_nonneg eps)
  · have hshape : points = headPt points :: ((pre ++ x :: suf) ++ [lastPt points]) := by
      rw [← hl]
      exact eq_head_interior_last points (by omega)
    refine ⟨pre, x, suf, hshape, heq, ?_, hpre, hsuf, ?_, ?_⟩
    · rw [heq] at hd; exact hd
    · conv_lhs => rw [hshape]
      rw [show (pre ++ x :: suf) ++ [lastPt points] = pre ++ x :: (suf ++ [lastPt points]) by
        simp]
      exact take_decomp _ _ _ _
    · conv_lhs => rw [hshape]
      rw [show (pre ++ x :: suf) ++ [lastPt points] = pre ++ x :: (suf ++ [lastPt points]) by
        simp]
      exact drop_decomp _ _ _ _

lemma rdp_unfold (points : List Pt) (eps : ℚ) :
    rdp points eps =
      if points.length < 3 then points
      else
        if eps ^ 2 < (scanMax (headPt points) (lastPt points) points.tail.dropLast 1 (0, 0)).2 then
          (rdp (points.take ((scanMax (headPt points) (lastPt points) points.tail.dropLast 1 (0, 0)).1 + 1)) eps).dropLast
            ++ rdp (points.drop ((scanMax (headPt points) (lastPt points) points.tail.dropLast 1 (0, 0)).1)) eps
        else [headPt points, lastPt points] := by
  rw [rdp]
  simp only [dite_eq_ite]

/-- The fuel-indexed variant agrees with `rdp` when the fuel is at least the
length of the input. -/
lemma rdp_eq_rdpF : ∀ (fuel : ℕ) (points : List Pt) (eps : ℚ), points.length ≤ fuel →
    rdpF fuel points eps = rdp points eps := by
  intro fuel
  induction fuel with
  | zero =>
    intro points eps h
    have hnil : points = [] := List.eq_nil_of_length_eq_zero (Nat.le_zero.mp h)
    subst hnil
    rw [rdp_unfold]
    rfl
  | succ fuel ih =>
    intro points eps h
    by_cases h3 : points.length < 3
    · rw [rdp_unfold, if_pos h3]
      simp [rdpF, h3]
    · by_cases hd : eps ^ 2 <
          (scanMax (headPt points) (lastPt points) points.tail.dropLast 1 (0, 0)).2
      · rcases split_decomp points eps h3 hd with
          ⟨pre, x, suf, hshape, hscan, _, _, _, hTake, hDrop⟩
        have hlen : points.length = pre.length + suf.length + 3 := by
          rw [hshape]; simp; omega
        rw [rdp_unfold, if_neg h3, if_pos hd]
        show (if points.length < 3 then points else _) = _
        rw [if_neg h3, if_pos hd, hscan]
        simp only
        rw [hTake, hDrop]
        rw [ih (headPt points :: (pre ++ [x])) eps (by simp; omega),
          ih (x :: (suf ++ [lastPt points])) eps (by simp; omega)]
      · rw [rdp_unfold, if_neg h3, if_neg hd]
        show (if points.length < 3 then points else _) = _
        rw [if_neg h3, if_neg hd]

lemma rdpF_succ_short (fuel : ℕ) (points : List Pt) (eps : ℚ) (h : points.length < 3) :
    rdpF (fuel + 1) points eps = points := by
  simp only [rdpF]
  rw [if_pos h]

lemma rdpF_succ_collapse (fuel : ℕ) (points : List Pt) (eps : ℚ)
    (h3 : ¬ points.length < 3)
    (hd : ¬ eps ^ 2 < (scanMax (headPt points) (lastPt points) points.tail.dropLast 1 (0, 0)).2) :
    rdpF (fuel + 1) points eps = [headPt points, lastPt points] := by
  simp only [rdpF]
  rw [if_neg h3, if_neg hd]

lemma rdpF_succ_split (fuel : ℕ) (points : List Pt) (eps : ℚ)
    (h3 : ¬ points.length < 3)
    (hd : eps ^ 2 < (scanMax (headPt points) (lastPt points) points.tail.dropLast 1 (0, 0)).2) :
    rdpF (fuel + 1) points eps =
      (rdpF fuel (points.take ((scanMax (headPt points) (lastPt points) points.tail.dropLast 1 (0, 0)).1 + 1)) eps).dropLast
        ++ rdpF fuel (points.drop ((scanMax (headPt points) (lastPt points) points.tail.dropLast 1 (0, 0)).1)) eps := by
  simp only [rdpF]
  rw [if_neg h3, if_pos hd]

@[simp] lemma lastPt_pair (a b : Pt) : lastPt [a, b] = b := rfl

lemma headPt_append_of_ne_nil {l : List Pt} (r : List Pt) (h : l ≠ []) :
    headPt (l ++ r) = headPt l := by
  cases l with
  | nil => exact absurd rfl h
  | cons p t => rfl

lemma headPt_dropLast (l : List Pt) (h : 2 ≤ l.length) : headPt l.dropLast = headPt l := by
  cases l with
  | nil => simp at h
  | cons p t =>
    have ht : t ≠ [] := by intro he; rw [he] at h; simp at h
    rw [dropLast_cons_of_ne_nil p ht, headPt_cons, headPt_cons]

/-- A simplified list always keeps at least its two endpoints. -/
lemma rdpF_two_le : ∀ (fuel : ℕ) (points : List Pt) (eps : ℚ), 2 ≤ points.length →
    2 ≤ (rdpF fuel points eps).length := by
  intro fuel
  induction fuel with
  | zero => intro points eps h; exact h
  | succ fuel ih =>
    intro points eps h
    by_cases h3 : points.length < 3
    · rw [rdpF_succ_short fuel points eps h3]; exact h
    · by_cases hd : eps ^ 2 <
          (scanMax (headPt points) (lastPt points) points.tail.dropLast 1 (0, 0)).2
      · rcases split_decomp points eps h3 hd with
          ⟨pre, x, suf, _, hscan, _, _, _, hTake, hDrop⟩
        rw [rdpF_succ_split fuel points eps h3 hd, hscan]
        simp only
        rw [hTake, hDrop]
        have h1 := ih (headPt points :: (pre ++ [x])) eps (by simp)
        have h2 := ih (x :: (suf ++ [lastPt points])) eps (by simp)
        simp only [List.length_append, List.length_dropLast]
        omega
      · rw [rdpF_succ_collapse fuel points eps h3 hd]; simp

/-- A simplified nonempty list is nonempty. -/
lemma rdpF_one_le : ∀ (fuel : ℕ) (points : List Pt) (eps : ℚ), 1 ≤ points.length →
    1 ≤ (rdpF fuel points eps).length := by
  intro fuel
  induction fuel with
  | zero => intro points eps h; exact h
  | succ fuel ih =>
    intro points eps h
    by_cases h3 : points.length < 3
    · rw [rdpF_succ_short fuel points eps h3]; exact h
    · by_cases hd : eps ^ 2 <
          (scanMax (headPt points) (lastPt points) points.tail.dropLast 1 (0, 0)).2
      · rcases split_decomp points eps h3 hd with
          ⟨pre, x, suf, _, hscan, _, _, _, hTake, hDrop⟩
        rw [rdpF_succ_split fuel points eps h3 hd, hscan]
        simp only
        rw [hTake, hDrop]
        have h2 := ih (x :: (suf ++ [lastPt points])) eps (by simp)
        simp only [List.length_append, List.length_dropLast]
        omega
      · rw [rdpF_succ_collapse fuel points eps h3 hd]; simp

lemma rdpF_ne_nil (fuel : ℕ) (points : List Pt) (eps : ℚ) (h : points ≠ []) :
    rdpF fuel points eps ≠ [] := by
  have := rdpF_one_le fuel points eps (by cases points with
    | nil => exact absurd rfl h
    | cons p t => simp)
  intro he
  rw [he] at this
  simp at this

/-- Simplification keeps the first vertex. -/
lemma rdpF_headPt : ∀ (fuel : ℕ) (points : List Pt) (eps : ℚ), points ≠ [] →
    headPt (rdpF fuel points eps) = headPt points := by
  intro fuel
  induction fuel with
  | zero => intro points eps _; rfl
  | succ fuel ih =>
    intro points eps h
    by_cases h3 : points.length < 3
    · rw [rdpF_succ_short fuel points eps h3]
    · by_cases hd : eps ^ 2 <
          (scanMax (headPt points) (lastPt points) points.tail.dropLast 1 (0, 0)).2
      · rcases split_decomp points eps h3 hd with
          ⟨pre, x, suf, _, hscan, _, _, _, hTake, hDrop⟩
        rw [rdpF_succ_split fuel points eps h3 hd, hscan]
        simp only
        rw [hTake, hDrop]
        have h2 := rdpF_two_le fuel (headPt points :: (pre ++ [x])) eps (by simp)
        rw [headPt_append_of_ne_nil _ (by
          intro he
          have := congrArg List.length he
          simp only [List.length_dropLast, List.length_nil] at this
          omega)]
        rw [headPt_dropLast _ h2, ih (headPt points :: (pre ++ [x])) eps (by simp)]
        rfl
      · rw [rdpF_succ_collapse fuel points eps h3 hd]; rfl

/-- Simplification keeps the last vertex. -/
lemma rdpF_lastPt : ∀ (fuel : ℕ) (points : List Pt) (eps : ℚ), points ≠ [] →
    lastPt (rdpF fuel points eps) = lastPt points := by
  intro fuel
  induction fuel with
  | zero => intro points eps _; rfl
  | succ fuel ih =>
    intro points eps h
    by_cases h3 : points.length < 3
    · rw [rdpF_succ_short fuel points eps h3]
    · by_cases hd : eps ^ 2 <
          (scanMax (headPt points) (lastPt points) points.tail.dropLast 1 (0, 0)).2
      · rcases split_decomp points eps h3 hd with
          ⟨pre, x, suf, _, hscan, _, _, _, hTake, hDrop⟩
        rw [rdpF_succ_split fuel points eps h3 hd, hscan]
        simp only
        rw [hTake, hDrop]
        rw [lastPt_append_of_ne_nil _ (rdpF_ne_nil fuel _ eps (by simp))]
        rw [ih (x :: (suf ++ [lastPt points])) eps (by simp)]
        rw [lastPt_cons_of_ne_nil x (by simp), lastPt_concat]
      · rw [rdpF_succ_collapse fuel points eps h3 hd]
        have h2 : 2 ≤ points.length := by omega
        conv_rhs => rw [eq_head_interior_last points h2]
        rw [lastPt_pair, lastPt_cons_of_ne_nil _ (by simp), lastPt_concat]

lemma sublist_strip_last {l m : List Pt} {a : Pt}
    (h : List.Sublist (l ++ [a]) (m ++ [a])) : List.Sublist l m := by
  have hr := h.reverse
  simp only [List.reverse_append, List.reverse_cons, List.reverse_nil, List.nil_append,
    List.singleton_append] at hr
  exact List.reverse_sublist.mp (List.cons_sublist_cons.mp hr)

/-- The simplified list is a subsequence of the input
(`len(rdp(P, e)) <= len(P)` and, more precisely, vertices are only ever
dropped, never invented). -/
lemma rdpF_sublist : ∀ (fuel : ℕ) (points : List Pt) (eps : ℚ),
    List.Sublist (rdpF fuel points eps) points := by
  intro fuel
  induction fuel with
  | zero => intro points eps; exact List.Sublist.refl points
  | succ fuel ih =>
    intro points eps
    by_cases h3 : points.length < 3
    · rw [rdpF_succ_short fuel points eps h3]
    · by_cases hd : eps ^ 2 <
          (scanMax (headPt points) (lastPt points) points.tail.dropLast 1 (0, 0)).2
      · rcases split_decomp points eps h3 hd with
          ⟨pre, x, suf, hshape, hscan, _, _, _, hTake, hDrop⟩
        rw [rdpF_succ_split fuel points eps h3 hd, hscan]
        simp only
        rw [hTake, hDrop]
        have hs1 := ih (headPt points :: (pre ++ [x])) eps
        have hs2 := ih (x :: (suf ++ [lastPt points])) eps
        have hlast : lastPt (rdpF fuel (headPt points :: (pre ++ [x])) eps) = x := by
          rw [rdpF_lastPt fuel _ eps (by simp), lastPt_cons_of_ne_nil _ (by simp), lastPt_concat]
        have hne : rdpF fuel (headPt points :: (pre ++ [x])) eps ≠ [] :=
          rdpF_ne_nil fuel _ eps (by simp)
        have hdec : (rdpF fuel (headPt points :: (pre ++ [x])) eps).dropLast ++ [x] =
            rdpF fuel (headPt points :: (pre ++ [x])) eps := by
          conv_rhs => rw [← dropLast_append_lastPt _ hne]
          rw [hlast]
        have hsub1 : List.Sublist ((rdpF fuel (headPt points :: (pre ++ [x])) eps).dropLast)
            (headPt points :: pre) := by
          apply sublist_strip_last
          rw [hdec]
          have : headPt points :: (pre ++ [x]) = (headPt points :: pre) ++ [x] := by simp
          rw [← this]
          exact hs1
        have hfin := List.Sublist.append hsub1 hs2
        have hsh2 : (headPt points :: pre) ++ (x :: (suf ++ [lastPt points])) = points := by
          conv_rhs => rw [hshape]
          simp
        rw [hsh2] at hfin
        exact hfin
      · rw [rdpF_succ_collapse fuel points eps h3 hd]
        conv_rhs => rw [eq_head_interior_last points (by omega)]
        exact List.cons_sublist_cons.mpr (List.sublist_append_right _ _)

/-- `Covers eps P S` says: `S` is obtained from `P` by keeping the two
endpoints and a subsequence of interior vertices, such that every
discarded vertex is, in squared distance, within `eps ^ 2` of the
line through the two retained vertices surrounding it.  This is the
formalisation of the specification sentence "every discarded vertex lies
within `epsilon` perpendicular distance of the line connecting its
neighboring retained vertices" (squared form; equivalent for
`epsilon ≥ 0`). -/
inductive Covers (eps : ℚ) : List Pt → List Pt → Prop
  | single (a : Pt) : Covers eps [a] [a]
  | step (a b : Pt) (gap P S : List Pt)
      (hgap : ∀ y ∈ gap, distance_point_line_sq y a b ≤ eps ^ 2)
      (hrest : Covers eps (b :: P) (b :: S)) :
      Covers eps (a :: (gap ++ b :: P)) (a :: b :: S)

lemma covers_ne_nil_left {eps : ℚ} {P S : List Pt} (h : Covers eps P S) : P ≠ [] := by
  cases h <;> simp

lemma covers_ne_nil_right {eps : ℚ} {P S : List Pt} (h : Covers eps P S) : S ≠ [] := by
  cases h <;> simp

lemma covers_headPt {eps : ℚ} {P S : List Pt} (h : Covers eps P S) :
    headPt P = headPt S := by
  cases h <;> rfl

lemma covers_lastPt {eps : ℚ} {P S : List Pt} (h : Covers eps P S) :
    lastPt P = lastPt S := by
  induction h with
  | single a => rfl
  | step a b gap P S hgap hrest ih =>
    have h1 : lastPt (a :: (gap ++ b :: P)) = lastPt (b :: P) := by
      rw [lastPt_cons_of_ne_nil a (by simp), lastPt_append_of_ne_nil gap (by simp)]
    have h2 : lastPt (a :: b :: S) = lastPt (b :: S) := lastPt_cons_of_ne_nil a (by simp)
    rw [h1, h2]
    exact ih

lemma covers_two_le {eps : ℚ} {P S : List Pt} (h : Covers eps P S)
    (hP : 2 ≤ P.length) : 2 ≤ S.length := by
  cases h with
  | single a => simp at hP
  | step a b gap P S hgap hrest => simp

lemma covers_singleton_aux {eps : ℚ} {Q S : List Pt} (h : Covers eps Q S) :
    ∀ a : Pt, Q = [a] → S = [a] := by
  cases h with
  | single b => intro a he; exact he
  | step a' b gap P S' hgap hrest =>
    intro a he
    simp only [List.cons.injEq] at he
    exact absurd he.2 (by simp)

lemma covers_singleton {eps : ℚ} {a : Pt} {S : List Pt} (h : Covers eps [a] S) :
    S = [a] :=
  covers_singleton_aux h a rfl

lemma covers_refl (eps : ℚ) : ∀ P : List Pt, P ≠ [] → Covers eps P P := by
  intro P
  induction P with
  | nil => intro h; exact absurd rfl h
  | cons a t ih =>
    intro _
    cases t with
    | nil => exact Covers.single a
    | cons b u =>
      have := Covers.step a b [] u u (by simp) (ih (by simp))
      simpa using this

/-- A nonempty list starts with its head. -/
lemma cons_headPt_tail (l : List Pt) (h : l ≠ []) : l = headPt l :: l.tail := by
  cases l with
  | nil => exact absurd rfl h
  | cons p t => rfl

/-- Two coverings that share their junction vertex glue to a covering of the
joined polyline (this mirrors the `rec_results1[:-1] + rec_results2`
concatenation in `rdp`). -/
lemma covers_glue {eps : ℚ} : ∀ {W U : List Pt}, Covers eps W U →
    ∀ {V T : List Pt}, Covers eps V T → headPt V = lastPt W →
    Covers eps (W.dropLast ++ V) (U.dropLast ++ T) := by
  intro W U h₁
  induction h₁ with
  | single a =>
    intro V T h₂ _
    simpa using h₂
  | step a b gap P S hgap hrest ih =>
    intro V T h₂ hlink
    have hlink' : headPt V = lastPt (b :: P) := by
      rw [hlink, lastPt_cons_of_ne_nil a (by simp), lastPt_append_of_ne_nil gap (by simp)]
    have ihc := ih h₂ hlink'
    have hVne : V ≠ [] := covers_ne_nil_left h₂
    have hTne : T ≠ [] := covers_ne_nil_right h₂
    cases P with
    | nil =>
      have hS0 : S = [] := by
        have hS : b :: S = [b] := covers_singleton hrest
        simpa using hS
      subst hS0
      have hV : V = b :: V.tail := by
        have hb : headPt V = b := by simpa using hlink'
        rw [← hb]
        exact cons_headPt_tail V hVne
      have hT : T = b :: T.tail := by
        have hb : headPt T = b := by
          rw [← covers_headPt h₂]
          simpa using hlink'
        rw [← hb]
        exact cons_headPt_tail T hTne
      have goal' : Covers eps (a :: (gap ++ b :: V.tail)) (a :: b :: T.tail) := by
        apply Covers.step a b gap V.tail T.tail hgap
        rw [← hV, ← hT]
        exact h₂
      have e1 : (a :: (gap ++ [b])).dropLast ++ V = a :: (gap ++ b :: V.tail) := by
        rw [dropLast_cons_of_ne_nil a (by simp), List.dropLast_concat, List.cons_append]
        conv_lhs => rw [hV]
      have e2 : (a :: b :: ([] : List Pt)).dropLast ++ T = a :: b :: T.tail := by
        simp only [List.dropLast_cons₂, List.dropLast_single, List.cons_append, List.nil_append]
        conv_lhs => rw [hT]
      rw [e1, e2]
      exact goal'
    | cons p P' =>
      have hSne : S ≠ [] := by
        have h2l := covers_two_le hrest (by simp)
        intro he; rw [he] at h2l; simp at h2l
      have e1 : (a :: (gap ++ b :: p :: P')).dropLast ++ V =
          a :: (gap ++ ((b :: p :: P').dropLast ++ V)) := by
        rw [dropLast_cons_of_ne_nil a (by simp), dropLast_append_of_ne_nil gap (by simp)]
        simp [List.append_assoc]
      have e2 : (a :: b :: S).dropLast ++ T = a :: ((b :: S).dropLast ++ T) := by
        rw [dropLast_cons_of_ne_nil a (by simp)]
        simp
      rw [e1, e2]
      have hshape1 : (b :: p :: P').dropLast ++ V = b :: ((p :: P').dropLast ++ V) := by
        rw [dropLast_cons_of_ne_nil b (by simp)]
        simp
      have hshape2 : (b :: S).dropLast ++ T = b :: (S.dropLast ++ T) := by
        rw [dropLast_cons_of_ne_nil b hSne]
        simp
      rw [hshape2]
      apply Covers.step a b gap ((p :: P').dropLast ++ V) (S.dropLast ++ T) hgap
      rw [← hshape1, ← hshape2]
      exact ihc

/-- The result of `rdp` keeps both endpoints and every vertex it discards is
within `eps` (squared: `eps ^ 2`) of the chord of its two neighbouring
retained vertices. -/
lemma rdpF_covers : ∀ (fuel : ℕ) (points : List Pt) (eps : ℚ), 2 ≤ points.length →
    Covers eps points (rdpF fuel points eps) := by
  intro fuel
  induction fuel with
  | zero =>
    intro points eps h
    exact covers_refl eps points (by intro he; rw [he] at h; simp at h)
  | succ fuel ih =>
    intro points eps h
    by_cases h3 : points.length < 3
    · rw [rdpF_succ_short fuel points eps h3]
      exact covers_refl eps points (by intro he; rw [he] at h; simp at h)
    · by_cases hd : eps ^ 2 <
          (scanMax (headPt points) (lastPt points) points.tail.dropLast 1 (0, 0)).2
      · rcases split_decomp points eps h3 hd with
          ⟨pre, x, suf, hshape, hscan, _, _, _, hTake, hDrop⟩
        rw [rdpF_succ_split fuel points eps h3 hd, hscan]
        simp only
        rw [hTake, hDrop]
        have h₁ := ih (headPt points :: (pre ++ [x])) eps (by simp)
        have h₂ := ih (x :: (suf ++ [lastPt points])) eps (by simp)
        have hlink : headPt (x :: (suf ++ [lastPt points])) =
            lastPt (headPt points :: (pre ++ [x])) := by
          rw [headPt_cons, lastPt_cons_of_ne_nil _ (by simp), lastPt_concat]
        have hglue := covers_glue h₁ h₂ hlink
        have e1 : (headPt points :: (pre ++ [x])).dropLast ++ (x :: (suf ++ [lastPt points])) =
            points := by
          rw [dropLast_cons_of_ne_nil _ (by simp), List.dropLast_concat]
          conv_rhs => rw [hshape]
          simp
        rw [e1] at hglue
        exact hglue
      · rw [rdpF_succ_collapse fuel points eps h3 hd]
        have hgap : ∀ y ∈ points.tail.dropLast,
            distance_point_line_sq y (headPt points) (lastPt points) ≤ eps ^ 2 := by
          intro y hy
          exact le_trans (scanMax_le (headPt points) (lastPt points) points.tail.dropLast
            1 0 0 y hy) (not_lt.mp hd)
        have hstep := Covers.step (headPt points) (lastPt points) points.tail.dropLast
          [] [] hgap (Covers.single (lastPt points))
        simp only [List.append_nil] at hstep
        conv_lhs => rw [eq_head_interior_last points (by omega)]
        exact hstep

lemma scanMax_no_update (s e : Pt) : ∀ (l : List Pt) (i idx0 : ℕ) (m0 : ℚ),
    (∀ y ∈ l, distance_point_line_sq y s e ≤ m0) →
    scanMax s e l i (idx0, m0) = (idx0, m0) := by
  intro l
  induction l with
  | nil => intro i idx0 m0 _; rfl
  | cons p ps ih =>
    intro i idx0 m0 hall
    have hp : ¬ m0 < distance_point_line_sq p s e := not_lt.mpr (hall p (by simp))
    simp only [scanMax, hp, if_false]
    exact ih (i + 1) idx0 m0 (fun y hy => hall y (by simp [hy]))

/-- If the scanned list consists of a strictly-dominated block, then the
first element attaining the maximum `D`, then a block bounded by `D`, the
loop returns exactly the position of that first maximal element. -/
lemma scanMax_of_first_max (s e : Pt) (D : ℚ) :
    ∀ (a : List Pt) (x : Pt) (b : List Pt) (i idx0 : ℕ) (m0 : ℚ),
    m0 < D →
    (∀ y ∈ a, distance_point_line_sq y s e < D) →
    distance_point_line_sq x s e = D →
    (∀ y ∈ b, distance_point_line_sq y s e ≤ D) →
    scanMax s e (a ++ x :: b) i (idx0, m0) = (i + a.length, D) := by
  intro a
  induction a with
  | nil =>
    intro x b i idx0 m0 hm0 _ hx hb
    simp only [List.nil_append, List.length_nil, Nat.add_zero]
    have hcond : m0 < distance_point_line_sq x s e := by rw [hx]; exact hm0
    simp only [scanMax, hcond, if_true]
    rw [hx]
    exact scanMax_no_update s e b (i + 1) i D hb
  | cons p a' ih =>
    intro x b i idx0 m0 hm0 ha hx hb
    have hpD : distance_point_line_sq p s e < D := ha p (by simp)
    have ha' : ∀ y ∈ a', distance_point_line_sq y s e < D := fun y hy => ha y (by simp [hy])
    by_cases hp : m0 < distance_point_line_sq p s e
    · have hstep : scanMax s e ((p :: a') ++ x :: b) i (idx0, m0)
          = scanMax s e (a' ++ x :: b) (i + 1) (i, distance_point_line_sq p s e) := by
        rw [List.cons_append]
        simp [scanMax, hp]
      rw [hstep, ih x b (i + 1) i (distance_point_line_sq p s e) hpD ha' hx hb]
      simp only [List.length_cons, Prod.mk.injEq, and_true]
      omega
    · have hstep : scanMax s e ((p :: a') ++ x :: b) i (idx0, m0)
          = scanMax s e (a' ++ x :: b) (i + 1) (idx0, m0) := by
        rw [List.cons_append]
        simp [scanMax, hp]
      rw [hstep, ih x b (i + 1) idx0 m0 hm0 ha' hx hb]
      simp only [List.length_cons, Prod.mk.injEq, and_true]
      omega

/-- Idempotence of the fuel-indexed simplifier: simplifying an already
simplified polyline (with the same tolerance) changes nothing. -/
lemma rdpF_idem : ∀ (fuel : ℕ) (points : List Pt) (eps : ℚ),
    rdpF fuel (rdpF fuel points eps) eps = rdpF fuel points eps := by
  intro fuel
  induction fuel with
  | zero => intro points eps; rfl
  | succ fuel ih =>
    intro points eps
    by_cases h3 : points.length < 3
    · rw [rdpF_succ_short fuel points eps h3, rdpF_succ_short fuel points eps h3]
    · by_cases hd : eps ^ 2 <
          (scanMax (headPt points) (lastPt points) points.tail.dropLast 1 (0, 0)).2
      · rcases split_decomp points eps h3 hd with
          ⟨pre, x, suf, hshape, hscan, hxa, hpre, hsuf, hTake, hDrop⟩
        have hsplit := rdpF_succ_split fuel points eps h3 hd
        rw [hscan] at hsplit
        simp only at hsplit
        rw [hTake, hDrop] at hsplit
        set s := headPt points with hs
        set e := lastPt points with he
        set D := distance_point_line_sq x s e with hD
        set T := s :: (pre ++ [x]) with hT
        set Dr := x :: (suf ++ [e]) with hDr
        set rec1 := rdpF fuel T eps with hrec1
        set rec2 := rdpF fuel Dr eps with hrec2
        -- shapes of the two recursive results
        have h2T : 2 ≤ rec1.length := rdpF_two_le fuel T eps (by rw [hT]; simp)
        have h2D : 2 ≤ rec2.length := rdpF_two_le fuel Dr eps (by rw [hDr]; simp)
        have hh1 : headPt rec1 = s := by
          rw [hrec1, rdpF_headPt fuel T eps (by rw [hT]; simp), hT, headPt_cons]
        have hl1 : lastPt rec1 = x := by
          rw [hrec1, rdpF_lastPt fuel T eps (by rw [hT]; simp), hT,
            lastPt_cons_of_ne_nil _ (by simp), lastPt_concat]
        have hh2 : headPt rec2 = x := by
          rw [hrec2, rdpF_headPt fuel Dr eps (by rw [hDr]; simp), hDr, headPt_cons]
        have hl2 : lastPt rec2 = e := by
          rw [hrec2, rdpF_lastPt fuel Dr eps (by rw [hDr]; simp), hDr,
            lastPt_cons_of_ne_nil _ (by simp), lastPt_concat]
        set inner := rec1.tail.dropLast with hinner
        set rinner := rec2.tail.dropLast with hrinner
        have hshape1 : rec1 = s :: (inner ++ [x]) := by
          conv_lhs => rw [eq_head_interior_last rec1 h2T]
          rw [hh1, hl1]
        have hshape2 : rec2 = x :: (rinner ++ [e]) := by
          conv_lhs => rw [eq_head_interior_last rec2 h2D]
          rw [hh2, hl2]
        -- the interiors of the recursive results sit inside pre and suf
        have hsub1 : List.Sublist inner pre := by
          have h0 : List.Sublist rec1 T := rdpF_sublist fuel T eps
          rw [hshape1, hT] at h0
          have h0' : List.Sublist ((s :: inner) ++ [x]) ((s :: pre) ++ [x]) := by
            simpa using h0
          exact List.cons_sublist_cons.mp (sublist_strip_last h0')
        have hsub2 : List.Sublist rinner suf := by
          have h0 : List.Sublist rec2 Dr := rdpF_sublist fuel Dr eps
          rw [hshape2, hDr] at h0
          have h0' : List.Sublist ((x :: rinner) ++ [e]) ((x :: suf) ++ [e]) := by
            simpa using h0
          exact List.cons_sublist_cons.mp (sublist_strip_last h0')
        have hinnerD : ∀ y ∈ inner, distance_point_line_sq y s e < D :=
          fun y hy => hpre y (hsub1.subset hy)
        have hrinnerD : ∀ y ∈ rinner, distance_point_line_sq y s e ≤ D :=
          fun y hy => hsuf y (hsub2.subset hy)
        -- the combined result R and its decomposition
        set R := rec1.dropLast ++ rec2 with hR
        have hdrop1 : rec1.dropLast = s :: inner := by
          rw [hshape1, dropLast_cons_of_ne_nil _ (by simp), List.dropLast_concat]
        have hRshape : R = s :: ((inner ++ x :: rinner) ++ [e]) := by
          rw [hR, hdrop1, hshape2]
          simp
        have hRlen : ¬ R.length < 3 := by
          rw [hRshape]
          simp only [List.length_cons, List.length_append]
          omega
        have hRhead : headPt R = s := by rw [hRshape, headPt_cons]
        have hRlast : lastPt R = e := by
          rw [hRshape, lastPt_cons_of_ne_nil _ (by simp), lastPt_concat]
        have hRint : R.tail.dropLast = inner ++ x :: rinner := by
          rw [hRshape]
          simp only [List.tail_cons]
          exact List.dropLast_concat
        have hRscan : scanMax (headPt R) (lastPt R) R.tail.dropLast 1 (0, 0)
            = (1 + inner.length, D) := by
          rw [hRhead, hRlast, hRint]
          have := scanMax_of_first_max s e D inner x rinner 1 0 0
            (lt_of_le_of_lt (sq_nonneg eps) hxa) hinnerD rfl hrinnerD
          rw [this]
        -- rerunning the simplifier on R takes the same branch
        have hd2 : eps ^ 2 < (scanMax (headPt R) (lastPt R) R.tail.dropLast 1 (0, 0)).2 := by
          rw [hRscan]
          exact hxa
        have hsplitR := rdpF_succ_split fuel R eps hRlen hd2
        rw [hRscan] at hsplitR
        simp only at hsplitR
        have hRtake : R.take (1 + inner.length + 1) = rec1 := by
          rw [hRshape, show (inner ++ x :: rinner) ++ [e] = inner ++ x :: (rinner ++ [e]) by
            simp, take_decomp, ← hshape1]
        have hRdropN : R.drop (1 + inner.length) = rec2 := by
          rw [hRshape, show (inner ++ x :: rinner) ++ [e] = inner ++ x :: (rinner ++ [e]) by
            simp, drop_decomp, ← hshape2]
        rw [hRtake, hRdropN] at hsplitR
        rw [hsplit, hsplitR, hrec1, hrec2, ih T eps, ih Dr eps, ← hrec1, ← hrec2]
      · rw [rdpF_succ_collapse fuel points eps h3 hd]
        exact rdpF_succ_short fuel [headPt points, lastPt points] eps (by simp)

lemma rdp_sublist (points : List Pt) (eps : ℚ) : List.Sublist (rdp points eps) points := by
  rw [← rdp_eq_rdpF points.length points eps le_rfl]
  exact rdpF_sublist points.length points eps

lemma rdp_length_le (points : List Pt) (eps : ℚ) : (rdp points eps).length ≤ points.length :=
  (rdp_sublist points eps).length_le

lemma rdp_covers (points : List Pt) (eps : ℚ) (h : 2 ≤ points.length) :
    Covers eps points (rdp points eps) := by
  rw [← rdp_eq_rdpF points.length points eps le_rfl]
  exact rdpF_covers points.length points eps h

lemma rdp_two_le (points : List Pt) (eps : ℚ) (h : 2 ≤ points.length) :
    2 ≤ (rdp points eps).length := by
  rw [← rdp_eq_rdpF points.length points eps le_rfl]
  exact rdpF_two_le points.length points eps h

lemma rdp_ne_nil (points : List Pt) (eps : ℚ) (h : points ≠ []) : rdp points eps ≠ [] := by
  rw [← rdp_eq_rdpF points.length points eps le_rfl]
  exact rdpF_ne_nil points.length points eps h

lemma rdp_idem (points : List Pt) (eps : ℚ) : rdp (rdp points eps) eps = rdp points eps := by
  have hlen : (rdpF points.length points eps).length ≤ points.length := by
    rw [rdp_eq_rdpF points.length points eps le_rfl]
    exact rdp_length_le points eps
  rw [← rdp_eq_rdpF points.length points eps le_rfl,
    ← rdp_eq_rdpF points.length (rdpF points.length points eps) eps hlen]
  exact rdpF_idem points.length points eps

/-- Recursion depth of `rdp`: `1` for a non-recursive call, otherwise one
more than the deeper of the two recursive calls.  This mirrors the call
tree of the Python `rdp` exactly. -/
def rdpDepth (points : List Pt) (eps : ℚ) : ℕ :=
  if h3 : points.length < 3 then 1
  else
    if hd : eps ^ 2 < (scanMax (headPt points) (lastPt points) points.tail.dropLast 1 (0, 0)).2 then
      1 + max (rdpDepth (points.take ((scanMax (headPt points) (lastPt points) points.tail.dropLast 1 (0, 0)).1 + 1)) eps)
        (rdpDepth (points.drop ((scanMax (headPt points) (lastPt points) points.tail.dropLast 1 (0, 0)).1)) eps)
    else 1
termination_by points.length
decreasing_by
  · have h0 : 0 < (scanMax (headPt points) (lastPt points) points.tail.dropLast 1 (0, 0)).2 :=
      lt_of_le_of_lt (sq_nonneg eps) hd
    have hb := scanMax_idx_le (headPt points) (lastPt points) points.tail.dropLast h0
    have hlen : points.tail.dropLast.length = points.length - 2 := by
      simp only [List.length_dropLast, List.length_tail]
      omega
    simp only [List.length_take]
    omega
  · have h0 : 0 < (scanMax (headPt points) (lastPt points) points.tail.dropLast 1 (0, 0)).2 :=
      lt_of_le_of_lt (sq_nonneg eps) hd
    have hb := scanMax_idx_le (headPt points) (lastPt points) points.tail.dropLast h0
    have hlen : points.tail.dropLast.length = points.length - 2 := by
      simp only [List.length_dropLast, List.length_tail]
      omega
    simp only [List.length_drop]
    omega

lemma rdpDepth_unfold (points : List Pt) (eps : ℚ) :
    rdpDepth points eps =
      if points.length < 3 then 1
      else
        if eps ^ 2 < (scanMax (headPt points) (lastPt points) points.tail.dropLast 1 (0, 0)).2 then
          1 + max (rdpDepth (points.take ((scanMax (headPt points) (lastPt points) points.tail.dropLast 1 (0, 0)).1 + 1)) eps)
            (rdpDepth (points.drop ((scanMax (headPt points) (lastPt points) points.tail.dropLast 1 (0, 0)).1)) eps)
        else 1 := by
  rw [rdpDepth]
  simp only [dite_eq_ite]

/-- The recursion depth of `rdp` is bounded by the vertex count: each
recursive call operates on a strictly shorter list. -/
lemma rdpDepth_le : ∀ (n : ℕ) (points : List Pt) (eps : ℚ), points.length ≤ n →
    1 ≤ points.length → rdpDepth points eps ≤ points.length := by
  intro n
  induction n with
  | zero => intro points eps h h1; omega
  | succ n ih =>
    intro points eps h h1
    by_cases h3 : points.length < 3
    · rw [rdpDepth_unfold, if_pos h3]; omega
    · by_cases hd : eps ^ 2 <
          (scanMax (headPt points) (lastPt points) points.tail.dropLast 1 (0, 0)).2
      · rcases split_decomp points eps h3 hd with
          ⟨pre, x, suf, hshape, hscan, _, _, _, hTake, hDrop⟩
        have hlen : points.length = pre.length + suf.length + 3 := by
          rw [hshape]; simp; omega
        rw [rdpDepth_unfold, if_neg h3, if_pos hd, hscan]
        simp only
        rw [hTake, hDrop]
        have hd1 := ih (headPt points :: (pre ++ [x])) eps (by simp; omega) (by simp)
        have hd2 := ih (x :: (suf ++ [lastPt points])) eps (by simp; omega) (by simp)
        simp only [List.length_cons, List.length_append, List.length_singleton] at hd1 hd2
        have hmax := max_le (le_trans hd1 (by omega : pre.length + 1 + 1 ≤ points.length - 1))
          (le_trans hd2 (by omega : suf.length + 1 + 1 ≤ points.length - 1))
        omega
      · rw [rdpDepth_unfold, if_neg h3, if_neg hd]; omega

/-- Every call of `rdp` occupies at least one stack frame. -/
lemma rdpDepth_pos (points : List Pt) (eps : ℚ) : 0 < rdpDepth points eps := by
  rw [rdpDepth_unfold]
  split
  · omega
  · split <;> omega

/-- A persisted territory region, as stored in `data/extracted_regions.json`
(see the output schema and `extract_boundaries.py` lines 126-132). -/
structure Region where
  regionId : ℕ
  polygon : List Pt
  centroid : Pt
  area : ℚ
  vertices : ℕ
deriving DecidableEq

/-- The persisted dataset (`data/extracted_regions.json`): the top-level
object written by `extract_boundaries.py` lines 159-166.  A region whose
`polygon` key is absent is modelled by an empty polygon (this is exactly
how `region.get('polygon', [])` treats it). -/
structure Dataset where
  extractedRegions : List Region
  congregationBoundary : Option (List Pt)
  imageWidth : ℤ
  imageHeight : ℤ
  sourceImage : String
  extractionDate : Option String
deriving DecidableEq

/-- Body of the per-region loop of `simplify_boundaries`
(`scripts/simplify_boundaries.py` lines 68-84): skip a region whose
polygon is empty or absent, otherwise replace the polygon by its
simplification and refresh the vertex count. -/
def simplifyRegion (eps : ℚ) (r : Region) : Region :=
  if r.polygon = [] then r
  else { r with polygon := rdp r.polygon eps, vertices := (rdp r.polygon eps).length }

/-- The in-memory dataset transformation performed by one successful run of
`simplify_boundaries` (lines 63-91): every region is processed by the loop,
all other fields of the dataset object are left untouched and written back
as loaded. -/
def simplify_regions (d : Dataset) (eps : ℚ) : Dataset :=
  { d with extractedRegions := d.extractedRegions.map (simplifyRegion eps) }

/-- Contents of the dataset file, split by how `simplify_boundaries`
reacts to them:

* `raw s` — text that `json.load` rejects (`JSONDecodeError`, which the
  script catches);
* `jsonNonDict s` — valid JSON whose top-level value is not an object
  (e.g. a list, string or number): `json.load` succeeds, and the first
  attribute access `data.get('extractedRegions', [])` raises an uncaught
  `AttributeError`;
* `dataset d` — a JSON object matching the dataset schema.

Deeper schema mismatches inside a JSON object (for instance
`extractedRegions` holding a non-list) raise similar uncaught exceptions
but are not distinguished by this model. -/
inductive FileContent where
  | raw (s : String)
  | jsonNonDict (s : String)
  | dataset (d : Dataset)
deriving DecidableEq

/-- Observable outcome of one process run of
`python scripts/simplify_boundaries.py`: final contents of the live file,
contents of the timestamped backup (if one was created), and the process
completion status. -/
structure RunResult where
  live : Option FileContent
  backup : Option FileContent
  exitCode : ℕ
deriving DecidableEq

/-- One invocation of `simplify_boundaries(file_path, epsilon)` as run by the
script's `__main__` block (`scripts/simplify_boundaries.py` lines 42-114),
assuming the write, if reached, completes (the write mechanics themselves
are modelled separately by `live_after_save`):

* missing file: print and `return` — nothing written, process ends
  normally with status `0`;
* backup first (`shutil.copy2`), then `json.load`; on a parse error
  (`FileContent.raw`) the function prints and returns, the live file is
  untouched, and — since the script never calls `sys.exit` and catches the
  load/save exceptions — the interpreter exits with status `0`;
* on valid JSON that is not an object (`FileContent.jsonNonDict`),
  `data.get('extractedRegions', [])` raises an uncaught `AttributeError`:
  the interpreter prints a traceback and exits with status `1`, after the
  backup was made and before anything is written;
* on a parsed dataset, the per-region `rdp` calls run on CPython's native
  call stack.  `recBudget` is the rdp-recursion budget of this run: the
  largest `rdp` call-tree depth that still fits under
  `sys.getrecursionlimit()` after the frames already occupied by the
  interpreter, the script and the loop.  If some region's polygon needs a
  deeper call tree (`rdpDepth`), the run dies of an uncaught
  `RecursionError` — status `1`, backup made, live file untouched (the
  single write at lines 89-91 had not been reached);
* otherwise the processed dataset is written back over the live file and
  the run exits with status `0`. -/
def simplify_boundaries (live : Option FileContent) (eps : ℚ) (recBudget : ℕ) : RunResult :=
  match live with
  | none => ⟨none, none, 0⟩
  | some (FileContent.raw s) => ⟨some (FileContent.raw s), some (FileContent.raw s), 0⟩
  | some (FileContent.jsonNonDict s) =>
    ⟨some (FileContent.jsonNonDict s), some (FileContent.jsonNonDict s), 1⟩
  | some (FileContent.dataset d) =>
    if ∃ r ∈ d.extractedRegions, r.polygon ≠ [] ∧ recBudget < rdpDepth r.polygon eps then
      ⟨some (FileContent.dataset d), some (FileContent.dataset d), 1⟩
    else
      ⟨some (FileContent.dataset (simplify_regions d eps)), some (FileContent.dataset d), 0⟩

/-- First `k` characters of a string (`String.mk` of a `List.take`). -/
def strTake (s : String) (k : ℕ) : String := String.mk (s.data.take k)

/-- The dataset write path, in both scripts, is

    with open(file_path, 'w', encoding='utf-8') as f:
        json.dump(data, f, indent=2)

(`simplify_boundaries.py` lines 89-91, and `save_extracted_data` in
`extract_boundaries.py` lines 181-184).  Opening the live file with mode
`'w'` truncates it immediately — the previous content (`oldContent`) is
discarded regardless of what happens next — and the new serialisation is
then streamed into it.  `failAfter = some k` models a write failure after
`k` characters: the live file is left holding exactly that prefix.
`failAfter = none` is a completed write. -/
def live_after_save (oldContent newContent : String) (failAfter : Option ℕ) : String :=
  match failAfter with
  | none => newContent
  | some k => strTake newContent k

lemma simplifyRegion_regionId (eps : ℚ) (r : Region) :
    (simplifyRegion eps r).regionId = r.regionId := by
  unfold simplifyRegion
  split <;> rfl

lemma simplifyRegion_centroid (eps : ℚ) (r : Region) :
    (simplifyRegion eps r).centroid = r.centroid := by
  unfold simplifyRegion
  split <;> rfl

lemma simplifyRegion_area (eps : ℚ) (r : Region) :
    (simplifyRegion eps r).area = r.area := by
  unfold simplifyRegion
  split <;> rfl

lemma simplifyRegion_of_nil (eps : ℚ) (r : Region) (h : r.polygon = []) :
    simplifyRegion eps r = r := by
  unfold simplifyRegion
  rw [if_pos h]

lemma simplifyRegion_of_ne_nil (eps : ℚ) (r : Region) (h : r.polygon ≠ []) :
    simplifyRegion eps r =
      { r with polygon := rdp r.polygon eps, vertices := (rdp r.polygon eps).length } := by
  unfold simplifyRegion
  rw [if_neg h]

lemma simplifyRegion_idem (eps : ℚ) (r : Region) :
    simplifyRegion eps (simplifyRegion eps r) = simplifyRegion eps r := by
  by_cases h : r.polygon = []
  · rw [simplifyRegion_of_nil eps r h, simplifyRegion_of_nil eps r h]
  · rw [simplifyRegion_of_ne_nil eps r h]
    have hne : rdp r.polygon eps ≠ [] := rdp_ne_nil r.polygon eps h
    rw [simplifyRegion_of_ne_nil eps _ (by simpa using hne)]
    simp [rdp_idem]

lemma simplify_regions_idem (d : Dataset) (eps : ℚ) :
    simplify_regions (simplify_regions d eps) eps = simplify_regions d eps := by
  unfold simplify_regions
  simp only [List.map_map]
  congr 1
  apply List.map_congr_left
  intro r _
  exact simplifyRegion_idem eps r

/-- Python `int(q)` on a float: truncation toward zero. -/
def intTrunc (q : ℚ) : ℤ := if 0 ≤ q then ⌊q⌋ else ⌈q⌉

/-- Abstract view of one OpenCV contour as consumed by the classification
loop of `extract_boundaries` (lines 87-132): its `cv2.contourArea`, its
closed `cv2.arcLength`, the polygon produced by
`cv2.approxPolyDP(contour, 0.001 * arcLength(contour, True), True)`
converted to integer pairs, and the raw moments `m00`, `m10`, `m01` from
`cv2.moments`.  These are inputs of the classifier; the fallback scan
(lines 145-156) recomputes `approxPolyDP` with the identical
`0.001 * perimeter` tolerance, so it yields the same `approx` value. -/
structure Contour where
  area : ℚ
  perimeter : ℚ
  approx : List Pt
  m00 : ℚ
  m10 : ℚ
  m01 : ℚ
deriving DecidableEq

/-- Loop state of the classification pass: accepted regions, the
congregation-boundary candidate, and the running maximum contour area. -/
structure ExtractState where
  regions : List Region
  boundary : Option (List Pt)
  maxContourArea : ℚ
deriving DecidableEq

/-- The region record appended by `regions.append({...})`
(`extract_boundaries.py` lines 126-132): `regionId = len(regions) + 1`,
the simplified polygon, the moment centroid (`int(m10/m00)`, `int(m01/m00)`,
falling back to `polygon[0]` when `m00 == 0`), the contour area and the
vertex count. -/
def acceptRegion (st : ExtractState) (c : Contour) : Region :=
  { regionId := st.regions.length + 1
    polygon := c.approx
    centroid :=
      if c.m00 ≠ 0 then (intTrunc (c.m10 / c.m00), intTrunc (c.m01 / c.m00))
      else headPt c.approx
    area := c.area
    vertices := c.approx.length }

/-- One iteration of the classification loop
(`extract_boundaries.py` lines 87-132), for image area `total`:

* skip if `area < total * 0.0005` (noise);
* skip if the simplified polygon has fewer than 4 points;
* update the running maximum; confirm the contour as congregation boundary
  only when it beats the running maximum and exceeds `total * 0.3`;
* accept as a region when `area <= total * 0.15`. -/
def classifyStep (total : ℚ) (st : ExtractState) (c : Contour) : ExtractState :=
  if c.area < total * (1 / 2000) then st
  else if c.approx.length < 4 then st
  else
    { regions :=
        if c.area ≤ total * (3 / 20) then st.regions ++ [acceptRegion st c]
        else st.regions
      boundary :=
        if st.maxContourArea < c.area ∧ total * (3 / 10) < c.area then some c.approx
        else st.boundary
      maxContourArea := if st.maxContourArea < c.area then c.area else st.maxContourArea }

/-- The whole classification loop over the discovered contours. -/
def classifyAll (total : ℚ) (cs : List Contour) : ExtractState :=
  cs.foldl (classifyStep total) ⟨[], none, 0⟩

/-- Stable descending insertion used to model Python's stable
`regions.sort(key=lambda x: x["area"], reverse=True)`: a region moves past
exactly the regions of strictly larger area, and stays before regions of
equal area that came later. -/
def insertReg (r : Region) : List Region → List Region
  | [] => [r]
  | x :: xs => if r.area < x.area then x :: insertReg r xs else r :: x :: xs

/-- Stable sort by area descending (insertion sort; the stable descending
permutation is unique, so this computes the same list as Python's
`list.sort`). -/
def sortRegs : List Region → List Region
  | [] => []
  | x :: xs => insertReg x (sortRegs xs)

/-- Renumbering after the sort (`extract_boundaries.py` lines 140-141):
`region["regionId"] = i + 1` in list order; called with first id `1`. -/
def renumber : ℕ → List Region → List Region
  | _, [] => []
  | i, r :: rs => { r with regionId := i } :: renumber (i + 1) rs

/-- One iteration of the fallback boundary scan
(`extract_boundaries.py` lines 148-156): among all contours with
`area > total * 0.1`, keep the one with the greatest perimeter, simplified
with the same `0.001 * perimeter` tolerance. -/
def fbStep (total : ℚ) (st : ℚ × Option (List Pt)) (c : Contour) : ℚ × Option (List Pt) :=
  if total * (1 / 10) < c.area ∧ st.1 < c.perimeter then (c.perimeter, some c.approx)
  else st

/-- The extraction output relevant to the claims: the persisted regions and
the congregation boundary. -/
structure ExtractOut where
  extractedRegions : List Region
  congregationBoundary : Option (List Pt)
deriving DecidableEq

/-- The `extract_boundaries` pipeline after contour discovery
(lines 79-166): classify every contour, sort accepted regions by area
descending (stably), renumber `1..N`, and choose the boundary — the
in-loop candidate if one was confirmed, otherwise the fallback scan. -/
def extract_boundaries (total : ℚ) (cs : List Contour) : ExtractOut :=
  { extractedRegions := renumber 1 (sortRegs (classifyAll total cs).regions),
    congregationBoundary :=
      match (classifyAll total cs).boundary with
      | some b => some b
      | none => (cs.foldl (fbStep total) (0, none)).2 }

/-- Membership in the axis-aligned bounding box of a polygon's vertices. -/
def inBBox (c : Pt) (poly : List Pt) : Prop :=
  (∃ p ∈ poly, p.1 ≤ c.1) ∧ (∃ p ∈ poly, c.1 ≤ p.1) ∧
    (∃ p ∈ poly, p.2 ≤ c.2) ∧ (∃ p ∈ poly, c.2 ≤ p.2)

instance (c : Pt) (poly : List Pt) : Decidable (inBBox c poly) := by
  unfold inBBox
  infer_instance

lemma classifyStep_mem {total : ℚ} {st : ExtractState} {c : Contour} {r : Region}
    (hr : r ∈ (classifyStep total st c).regions) :
    r ∈ st.regions ∨
      (¬ c.approx.length < 4 ∧ r = acceptRegion st c ∧ r.area ≤ total * (3 / 20)) := by
  unfold classifyStep at hr
  split at hr
  · exact Or.inl hr
  · split at hr
    · exact Or.inl hr
    · simp only at hr
      split at hr
      · rcases List.mem_append.mp hr with h | h
        · exact Or.inl h
        · right
          have hrr : r = acceptRegion st c := by simpa using h
          refine ⟨by assumption, hrr, ?_⟩
          rw [hrr]
          unfold acceptRegion
          simpa using (by assumption : c.area ≤ total * (3 / 20))
      · exact Or.inl hr

/-- Fold invariant for the classification loop. -/
lemma classifyFold_inv (total : ℚ) (Q : Region → Prop)
    (hstep : ∀ (st : ExtractState) (c : Contour), ¬ c.approx.length < 4 →
      (acceptRegion st c).area ≤ total * (3 / 20) → Q (acceptRegion st c)) :
    ∀ (cs : List Contour) (st : ExtractState), (∀ r ∈ st.regions, Q r) →
      ∀ r ∈ (cs.foldl (classifyStep total) st).regions, Q r := by
  intro cs
  induction cs with
  | nil => intro st hst r hr; exact hst r hr
  | cons c cs ih =>
    intro st hst r hr
    refine ih (classifyStep total st c) ?_ r hr
    intro r' hr'
    rcases classifyStep_mem hr' with h | ⟨hlen, hrr, harea⟩
    · exact hst r' h
    · rw [hrr]
      exact hstep st c hlen (by rw [← hrr]; exact (hrr ▸ harea))

/-- Every region accepted by the classifier has at least 4 vertices, a
vertex count equal to its polygon length, and area at most 15% of the
image. -/
lemma classifyAll_props (total : ℚ) (cs : List Contour) :
    ∀ r ∈ (classifyAll total cs).regions,
      4 ≤ r.polygon.length ∧ r.vertices = r.polygon.length ∧ r.area ≤ total * (3 / 20) := by
  refine classifyFold_inv total _ ?_ cs ⟨[], none, 0⟩ (by simp)
  intro st c hlen harea
  unfold acceptRegion at harea
  unfold acceptRegion
  refine ⟨by simpa using Nat.le_of_not_lt hlen, rfl, ?_⟩
  simpa using harea

/-- The ids assigned by the classifier are `1..N` in acceptance order. -/
lemma classifyFold_ids (total : ℚ) :
    ∀ (cs : List Contour) (st : ExtractState),
      st.regions.map (fun r => r.regionId) = List.range' 1 st.regions.length →
      (cs.foldl (classifyStep total) st).regions.map (fun r => r.regionId) =
        List.range' 1 (cs.foldl (classifyStep total) st).regions.length := by
  intro cs
  induction cs with
  | nil => intro st h; exact h
  | cons c cs ih =>
    intro st hst
    refine ih (classifyStep total st c) ?_
    unfold classifyStep
    split
    · exact hst
    · split
      · exact hst
      · simp only
        split
        · rw [List.map_append, hst]
          simp only [List.length_append, List.map_cons, List.map_nil, List.length_cons,
            List.length_nil]
          unfold acceptRegion
          simp only
          rw [List.range'_concat]
          simp [Nat.add_comm]
        · exact hst

lemma classifyAll_ids (total : ℚ) (cs : List Contour) :
    (classifyAll total cs).regions.map (fun r => r.regionId) =
      List.range' 1 (classifyAll total cs).regions.length :=
  classifyFold_ids total cs ⟨[], none, 0⟩ (by simp)

/-- Acceptance order means strictly increasing ids. -/
lemma classifyAll_ids_pairwise (total : ℚ) (cs : List Contour) :
    List.Pairwise (fun a b : Region => a.regionId < b.regionId)
      (classifyAll total cs).regions := by
  have h := classifyAll_ids total cs
  have hmap : List.Pairwise (· < ·)
      ((classifyAll total cs).regions.map (fun r => r.regionId)) := by
    rw [h]
    exact List.pairwise_lt_range' 1 _ 1 (by omega)
  exact (List.pairwise_map.mp hmap)

/-- Ordering produced by the stable descending sort: strictly larger area
first; on equal areas, the region accepted earlier (smaller pre-sort
`regionId`, i.e. earlier contour discovery) first. -/
def byAreaThenId (a b : Region) : Prop :=
  b.area < a.area ∨ (a.area = b.area ∧ a.regionId < b.regionId)

lemma mem_insertReg (r y : Region) : ∀ l : List Region,
    y ∈ insertReg r l ↔ y = r ∨ y ∈ l := by
  intro l
  induction l with
  | nil => simp [insertReg]
  | cons x xs ih =>
    unfold insertReg
    split
    · rw [List.mem_cons, ih, List.mem_cons]
      tauto
    · simp only [List.mem_cons]

lemma mem_sortRegs (y : Region) : ∀ l : List Region, y ∈ sortRegs l ↔ y ∈ l := by
  intro l
  induction l with
  | nil => simp [sortRegs]
  | cons x xs ih =>
    unfold sortRegs
    rw [mem_insertReg, ih, List.mem_cons]

lemma insertReg_pairwise (r : Region) : ∀ l : List Region,
    List.Pairwise byAreaThenId l → (∀ y ∈ l, r.regionId < y.regionId) →
    List.Pairwise byAreaThenId (insertReg r l) := by
  intro l
  induction l with
  | nil => intro _ _; simp [insertReg, List.pairwise_singleton]
  | cons x xs ih =>
    intro hp hids
    rcases List.pairwise_cons.mp hp with ⟨hx, hxs⟩
    unfold insertReg
    split
    · rename_i hlt
      refine List.pairwise_cons.mpr ⟨?_, ih hxs (fun y hy => hids y (by simp [hy]))⟩
      intro z hz
      rcases (mem_insertReg r z xs).mp hz with hzr | hzx
      · rw [hzr]
        exact Or.inl hlt
      · exact hx z hzx
    · rename_i hnlt
      have hyx : x.area ≤ r.area := not_lt.mp hnlt
      refine List.pairwise_cons.mpr ⟨?_, hp⟩
      intro z hz
      rcases List.mem_cons.mp hz with hzx | hzs
      · rw [hzx]
        rcases lt_or_eq_of_le hyx with h | h
        · exact Or.inl h
        · exact Or.inr ⟨h.symm, hids x (by simp)⟩
      · rcases hx z hzs with h | ⟨heq, _⟩
        · exact Or.inl (lt_of_lt_of_le h hyx)
        · rcases lt_or_eq_of_le hyx with h2 | h2
          · exact Or.inl (heq ▸ h2)
          · exact Or.inr ⟨by rw [← h2, heq], hids z (by simp [hzs])⟩

lemma sortRegs_pairwise : ∀ l : List Region,
    List.Pairwise (fun a b : Region => a.regionId < b.regionId) l →
    List.Pairwise byAreaThenId (sortRegs l) := by
  intro l
  induction l with
  | nil => intro _; simp [sortRegs]
  | cons x xs ih =>
    intro hp
    rcases List.pairwise_cons.mp hp with ⟨hx, hxs⟩
    unfold sortRegs
    exact insertReg_pairwise x (sortRegs xs) (ih hxs)
      (fun y hy => hx y ((mem_sortRegs y xs).mp hy))

lemma renumber_length : ∀ (i : ℕ) (l : List Region), (renumber i l).length = l.length := by
  intro i l
  induction l generalizing i with
  | nil => rfl
  | cons r rs ih => simp [renumber, ih]

lemma renumber_map_id : ∀ (i : ℕ) (l : List Region),
    (renumber i l).map (fun r => r.regionId) = List.range' i l.length := by
  intro i l
  induction l generalizing i with
  | nil => rfl
  | cons r rs ih => simp [renumber, List.range'_succ, ih]

lemma renumber_map_area : ∀ (i : ℕ) (l : List Region),
    (renumber i l).map (fun r => r.area) = l.map (fun r => r.area) := by
  intro i l
  induction l generalizing i with
  | nil => rfl
  | cons r rs ih => simp [renumber, ih]

lemma mem_renumber : ∀ (i : ℕ) (l : List Region) (y : Region), y ∈ renumber i l →
    ∃ z ∈ l, y.polygon = z.polygon ∧ y.centroid = z.centroid ∧ y.area = z.area ∧
      y.vertices = z.vertices := by
  intro i l
  induction l generalizing i with
  | nil => intro y hy; simp [renumber] at hy
  | cons r rs ih =>
    intro y hy
    rcases List.mem_cons.mp hy with hy | hy
    · exact ⟨r, by simp, by rw [hy], by rw [hy], by rw [hy], by rw [hy]⟩
    · rcases ih (i + 1) y hy with ⟨z, hz, h⟩
      exact ⟨z, by simp [hz], h⟩

lemma renumber_pairwise_area (i : ℕ) (l : List Region)
    (h : List.Pairwise (fun a b : Region => b.area ≤ a.area) l) :
    List.Pairwise (fun a b : Region => b.area ≤ a.area) (renumber i l) := by
  have hmap : List.Pairwise (fun a b : ℚ => b ≤ a) (l.map (fun r => r.area)) :=
    List.pairwise_map.mpr h
  rw [← renumber_map_area i l] at hmap
  exact List.pairwise_map.mp hmap

/-- Claim C3, counterexample: invoking the simplification pass on a
malformed (unparseable) dataset file does leave the live file
byte-identical and creates the backup, but the process completion status
is `0`, not non-zero — the script catches the parse error, prints and
returns normally, and `__main__` never calls `sys.exit`. -/
theorem malformed_run_exit_code_zero :
    simplify_boundaries (some (FileContent.raw "not a dataset")) 50 1000
      = ⟨some (FileContent.raw "not a dataset"), some (FileContent.raw "not a dataset"), 0⟩ :=
  rfl

/-- Claim C3 (amended): a simplification run against a malformed
(unparseable) dataset file terminates early with completion status `0`,
not non-zero (the caught parse error is reported only through a printed
message), leaving the original file byte-identical except for the newly
created backup; the general clause of the claim is also wrong about the
status — uncaught failures do exit non-zero: valid-JSON non-object
content (`AttributeError` at `data.get`) and an over-deep `rdp` call tree
(`RecursionError`) both exit with status `1` — but right about
persistence: every failure precedes the single write, so the live file is
always either unchanged or the completely simplified dataset, never a
partially processed one (the write mechanics themselves are refined by
`live_after_save`). -/
theorem malformed_run_behavior (s t : String) (eps : ℚ) (recBudget : ℕ)
    (live : Option FileContent) (d : Dataset)
    (hdeep : ∃ r ∈ d.extractedRegions, r.polygon ≠ [] ∧ recBudget < rdpDepth r.polygon eps) :
    simplify_boundaries (some (FileContent.raw s)) eps recBudget
      = ⟨some (FileContent.raw s), some (FileContent.raw s), 0⟩ ∧
    simplify_boundaries (some (FileContent.jsonNonDict t)) eps recBudget
      = ⟨some (FileContent.jsonNonDict t), some (FileContent.jsonNonDict t), 1⟩ ∧
    simplify_boundaries (some (FileContent.dataset d)) eps recBudget
      = ⟨some (FileContent.dataset d), some (FileContent.dataset d), 1⟩ ∧
    ((simplify_boundaries live eps recBudget).live = live ∨
      ∃ d2, live = some (FileContent.dataset d2) ∧
        (simplify_boundaries live eps recBudget).live =
          some (FileContent.dataset (simplify_regions d2 eps))) := by
  refine ⟨rfl, rfl, ?_, ?_⟩
  · simp only [simplify_boundaries]
    rw [if_pos hdeep]
  · rcases live with _ | c
    · exact Or.inl rfl
    · rcases c with s' | s' | d2
      · exact Or.inl rfl
      · exact Or.inl rfl
      · by_cases h : ∃ r ∈ d2.extractedRegions, r.polygon ≠ [] ∧
            recBudget < rdpDepth r.polygon eps
        · left
          simp only [simplify_boundaries]
          rw [if_pos h]
        · right
          refine ⟨d2, rfl, ?_⟩
          simp only [simplify_boundaries]
          rw [if_neg h]

/-- Witness for C3 (amended) at concrete inputs: an unparseable file, a
valid-JSON non-object file, a dataset whose single region out-runs a
recursion budget of `0`, and a missing live file. -/
theorem malformed_run_behavior_witness :
    simplify_boundaries (some (FileContent.raw "not a dataset")) 0 0
      = ⟨some (FileContent.raw "not a dataset"), some (FileContent.raw "not a dataset"), 0⟩ ∧
    simplify_boundaries (some (FileContent.jsonNonDict "[1, 2]")) 0 0
      = ⟨some (FileContent.jsonNonDict "[1, 2]"),
          some (FileContent.jsonNonDict "[1, 2]"), 1⟩ ∧
    simplify_boundaries
        (some (FileContent.dataset
          ⟨[⟨1, [((0:ℤ), (0:ℤ)), (1, 0)], (0, 0), 1, 2⟩], none, 10, 10, "m", none⟩)) 0 0
      = ⟨some (FileContent.dataset
            ⟨[⟨1, [((0:ℤ), (0:ℤ)), (1, 0)], (0, 0), 1, 2⟩], none, 10, 10, "m", none⟩),
          some (FileContent.dataset
            ⟨[⟨1, [((0:ℤ), (0:ℤ)), (1, 0)], (0, 0), 1, 2⟩], none, 10, 10, "m", none⟩), 1⟩ ∧
    ((simplify_boundaries none 0 0).live = none ∨
      ∃ d2, (none : Option FileContent) = some (FileContent.dataset d2) ∧
        (simplify_boundaries none 0 0).live =
          some (FileContent.dataset (simplify_regions d2 0))) :=
  malformed_run_behavior "not a dataset" "[1, 2]" 0 0 none
    ⟨[⟨1, [((0:ℤ), (0:ℤ)), (1, 0)], (0, 0), 1, 2⟩], none, 10, 10, "m", none⟩
    ⟨⟨1, [((0:ℤ), (0:ℤ)), (1, 0)], (0, 0), 1, 2⟩, List.mem_singleton.mpr rfl,
      by simp, rdpDepth_pos [((0:ℤ), (0:ℤ)), (1, 0)] 0⟩

/-- Claim C4, counterexample: the dataset write path opens the live file
directly with mode `'w'` and streams into it; a failure after 3 characters
leaves the live file holding `"NEW"`, which is neither the old content nor
the new content — so the write path is not atomic and a write failure can
leave the live dataset file partially written. -/
theorem save_not_atomic :
    live_after_save "OLDDATA" "NEWDATA" (some 3) = "NEW" ∧
    live_after_save "OLDDATA" "NEWDATA" (some 3) ≠ "OLDDATA" ∧
    live_after_save "OLDDATA" "NEWDATA" (some 3) ≠ "NEWDATA" := by
  refine ⟨?_, ?_, ?_⟩ <;> decide

/-- Claim C4 (amended): the write path is direct, not
write-to-temporary-file-then-rename: a completed write leaves exactly the
new content, and a write failure after `k` characters leaves the live file
holding the `k`-character prefix of the new content (possibly a partial
dataset).  The simplification pass does create a full backup of the old
content beforehand, so the old dataset remains recoverable from the
backup file. -/
theorem save_write_direct (oldC newC : String) (k : ℕ) (c : FileContent) (eps : ℚ)
    (recBudget : ℕ) :
    live_after_save oldC newC none = newC ∧
    live_after_save oldC newC (some k) = strTake newC k ∧
    (simplify_boundaries (some c) eps recBudget).backup = some c := by
  refine ⟨rfl, rfl, ?_⟩
  rcases c with s | s | d
  · rfl
  · rfl
  · simp only [simplify_boundaries]
    split <;> rfl

/-- Claim C6: `rdp` is idempotent — `rdp(rdp(P, e), e) = rdp(P, e)` for
every vertex list `P` and tolerance `e ≥ 0` — and consequently re-running
the simplification pass with the same epsilon on already-simplified output
is a no-op on the dataset. -/
theorem rdp_pass_idempotent (P : List Pt) (eps : ℚ) (d : Dataset) (heps : 0 ≤ eps) :
    rdp (rdp P eps) eps = rdp P eps ∧
    simplify_regions (simplify_regions d eps) eps = simplify_regions d eps :=
  ⟨rdp_idem P eps, simplify_regions_idem d eps⟩

/-- Witness for C6 at a concrete input. -/
theorem rdp_pass_idempotent_witness :
    rdp (rdp [((0:ℤ), (0:ℤ)), (3, 4), (7, 0)] 0) 0 = rdp [((0:ℤ), (0:ℤ)), (3, 4), (7, 0)] 0 ∧
    simplify_regions (simplify_regions ⟨[], none, 10, 10, "Map/Real Boundary.png", none⟩ 0) 0
      = simplify_regions ⟨[], none, 10, 10, "Map/Real Boundary.png", none⟩ 0 :=
  rdp_pass_idempotent [((0:ℤ), (0:ℤ)), (3, 4), (7, 0)] 0
    ⟨[], none, 10, 10, "Map/Real Boundary.png", none⟩ (le_refl 0)

/-- Claim C9: `rdp` terminates on every finite vertex list (the embedding
`rdp` is a total function by construction, with each recursive call on a
strictly shorter list), and under `epsilon ≥ 0` its recursion depth —
`rdpDepth`, which mirrors the call tree exactly — is bounded by the vertex
count. -/
theorem rdp_depth_bounded (P : List Pt) (eps : ℚ) (heps : 0 ≤ eps) (h1 : 1 ≤ P.length) :
    rdpDepth P eps ≤ P.length :=
  rdpDepth_le P.length P eps le_rfl h1

/-- Witness for C9 at a concrete input. -/
theorem rdp_depth_bounded_witness :
    rdpDepth [((0:ℤ), (0:ℤ)), (1, 5), (2, 0)] 0 ≤ 3 :=
  rdp_depth_bounded [((0:ℤ), (0:ℤ)), (1, 5), (2, 0)] 0 (le_refl 0) (by decide)

/-- Claim C10: a successful simplification pass writes back every dataset
field unchanged except the per-region `polygon` and `vertices`; a region's
`regionId`, `centroid` and `area` are untouched, and a region whose
polygon is empty (or absent) is written back exactly as loaded. -/
theorem simplify_frame_effect (d : Dataset) (eps : ℚ) (i : ℕ) (r : Region)
    (hr : d.extractedRegions[i]? = some r) :
    (simplify_regions d eps).congregationBoundary = d.congregationBoundary ∧
    (simplify_regions d eps).imageWidth = d.imageWidth ∧
    (simplify_regions d eps).imageHeight = d.imageHeight ∧
    (simplify_regions d eps).sourceImage = d.sourceImage ∧
    (simplify_regions d eps).extractionDate = d.extractionDate ∧
    (simplify_regions d eps).extractedRegions.length = d.extractedRegions.length ∧
    (simplify_regions d eps).extractedRegions[i]? = some (simplifyRegion eps r) ∧
    (simplifyRegion eps r).regionId = r.regionId ∧
    (simplifyRegion eps r).centroid = r.centroid ∧
    (simplifyRegion eps r).area = r.area ∧
    (r.polygon = [] → simplifyRegion eps r = r) := by
  refine ⟨rfl, rfl, rfl, rfl, rfl, by simp [simplify_regions], ?_,
    simplifyRegion_regionId eps r, simplifyRegion_centroid eps r,
    simplifyRegion_area eps r, simplifyRegion_of_nil eps r⟩
  show (d.extractedRegions.map (simplifyRegion eps))[i]? = some (simplifyRegion eps r)
  rw [List.getElem?_map, hr]
  rfl

/-- Witness for C10 at a concrete input. -/
theorem simplify_frame_effect_witness :
    (simplify_regions ⟨[⟨1, [], (2, 3), 7, 0⟩], some [(0, 0)], 10, 10, "m", none⟩ 50).congregationBoundary
      = some [(0, 0)] ∧
    (simplify_regions ⟨[⟨1, [], (2, 3), 7, 0⟩], some [(0, 0)], 10, 10, "m", none⟩ 50).imageWidth = 10 ∧
    (simplify_regions ⟨[⟨1, [], (2, 3), 7, 0⟩], some [(0, 0)], 10, 10, "m", none⟩ 50).imageHeight = 10 ∧
    (simplify_regions ⟨[⟨1, [], (2, 3), 7, 0⟩], some [(0, 0)], 10, 10, "m", none⟩ 50).sourceImage = "m" ∧
    (simplify_regions ⟨[⟨1, [], (2, 3), 7, 0⟩], some [(0, 0)], 10, 10, "m", none⟩ 50).extractionDate = none ∧
    (simplify_regions ⟨[⟨1, [], (2, 3), 7, 0⟩], some [(0, 0)], 10, 10, "m", none⟩ 50).extractedRegions.length = 1 ∧
    (simplify_regions ⟨[⟨1, [], (2, 3), 7, 0⟩], some [(0, 0)], 10, 10, "m", none⟩ 50).extractedRegions[0]?
      = some (simplifyRegion 50 ⟨1, [], (2, 3), 7, 0⟩) ∧
    (simplifyRegion 50 ⟨1, [], (2, 3), 7, 0⟩).regionId = (⟨1, [], (2, 3), 7, 0⟩ : Region).regionId ∧
    (simplifyRegion 50 ⟨1, [], (2, 3), 7, 0⟩).centroid = (⟨1, [], (2, 3), 7, 0⟩ : Region).centroid ∧
    (simplifyRegion 50 ⟨1, [], (2, 3), 7, 0⟩).area = (⟨1, [], (2, 3), 7, 0⟩ : Region).area ∧
    ((⟨1, [], (2, 3), 7, 0⟩ : Region).polygon = [] →
      simplifyRegion 50 ⟨1, [], (2, 3), 7, 0⟩ = ⟨1, [], (2, 3), 7, 0⟩) :=
  simplify_frame_effect ⟨[⟨1, [], (2, 3), 7, 0⟩], some [(0, 0)], 10, 10, "m", none⟩ 50 0
    ⟨1, [], (2, 3), 7, 0⟩ rfl

/-- Claim C5 (amended): for every vertex list of length at least 2 and
every `epsilon ≥ 0`, `rdp` returns a subsequence of `P` that retains the
first and last vertices and in which every discarded vertex lies within
`epsilon` perpendicular distance of the line connecting its neighbouring
retained vertices — but the returned subsequence is not in general of
minimal cardinality among such subsequences. -/
theorem rdp_deviation_subsequence (P : List Pt) (eps : ℚ) (h2 : 2 ≤ P.length)
    (heps : 0 ≤ eps) :
    Covers eps P (rdp P eps) ∧ List.Sublist (rdp P eps) P ∧
    headPt (rdp P eps) = headPt P ∧ lastPt (rdp P eps) = lastPt P ∧
    (rdp P eps).length ≤ P.length := by
  have hc := rdp_covers P eps h2
  exact ⟨hc, rdp_sublist P eps, (covers_headPt hc).symm, (covers_lastPt hc).symm,
    rdp_length_le P eps⟩

/-- Witness for C5 (amended) at a concrete input. -/
theorem rdp_deviation_subsequence_witness :
    Covers 0 [((0:ℤ), (0:ℤ)), (1, 0)] (rdp [((0:ℤ), (0:ℤ)), (1, 0)] 0) ∧
    List.Sublist (rdp [((0:ℤ), (0:ℤ)), (1, 0)] 0) [((0:ℤ), (0:ℤ)), (1, 0)] ∧
    headPt (rdp [((0:ℤ), (0:ℤ)), (1, 0)] 0) = headPt [((0:ℤ), (0:ℤ)), (1, 0)] ∧
    lastPt (rdp [((0:ℤ), (0:ℤ)), (1, 0)] 0) = lastPt [((0:ℤ), (0:ℤ)), (1, 0)] ∧
    (rdp [((0:ℤ), (0:ℤ)), (1, 0)] 0).length ≤ ([((0:ℤ), (0:ℤ)), (1, 0)] : List Pt).length :=
  rdp_deviation_subsequence [((0:ℤ), (0:ℤ)), (1, 0)] 0 (by decide) (le_refl 0)

/-- Claim C5, counterexample: on the polyline
`[(0,0), (20,10), (60,11), (80,5), (100,0)]` with `epsilon = 6`, the
three-vertex subsequence `[(0,0), (20,10), (100,0)]` already satisfies the
deviation contract (both discarded vertices are within distance 6 of the
chord from `(20,10)` to `(100,0)`), yet `rdp` returns four vertices — so
`rdp` does not return the minimal-cardinality admissible subsequence. -/
theorem rdp_not_minimal_cardinality :
    Covers 6 [((0:ℤ), (0:ℤ)), (20, 10), (60, 11), (80, 5), (100, 0)]
      [((0:ℤ), (0:ℤ)), (20, 10), (100, 0)] ∧
    rdp [((0:ℤ), (0:ℤ)), (20, 10), (60, 11), (80, 5), (100, 0)] 6
      = [((0:ℤ), (0:ℤ)), (20, 10), (60, 11), (100, 0)] := by
  constructor
  · have hgap : ∀ y ∈ ([((60:ℤ), (11:ℤ)), (80, 5)] : List Pt),
        distance_point_line_sq y ((20:ℤ), (10:ℤ)) ((100:ℤ), (0:ℤ)) ≤ (6:ℚ) ^ 2 := by
      intro y hy
      simp only [List.mem_cons, List.mem_singleton] at hy
      rcases hy with hy | hy
      · rw [hy]; norm_num [distance_point_line_sq, Prod.ext_iff]
      · rcases hy with hy | hy
        · rw [hy]; norm_num [distance_point_line_sq, Prod.ext_iff]
        · simp at hy
    have hrest : Covers 6 [((20:ℤ), (10:ℤ)), (60, 11), (80, 5), (100, 0)]
        [((20:ℤ), (10:ℤ)), (100, 0)] := by
      have hstep := Covers.step ((20:ℤ), (10:ℤ)) ((100:ℤ), (0:ℤ))
        [((60:ℤ), (11:ℤ)), (80, 5)] [] [] hgap (Covers.single ((100:ℤ), (0:ℤ)))
      simpa using hstep
    have hstep := Covers.step ((0:ℤ), (0:ℤ)) ((20:ℤ), (10:ℤ)) []
      [((60:ℤ), (11:ℤ)), (80, 5), (100, 0)] [((100:ℤ), (0:ℤ))] (by simp) hrest
    simpa using hstep
  · rw [← rdp_eq_rdpF 5 _ 6 (by norm_num)]
    have hscan0 : scanMax (headPt [((0:ℤ), (0:ℤ)), (20, 10), (60, 11), (80, 5), (100, 0)])
        (lastPt [((0:ℤ), (0:ℤ)), (20, 10), (60, 11), (80, 5), (100, 0)])
        ([((0:ℤ), (0:ℤ)), (20, 10), (60, 11), (80, 5), (100, 0)] : List Pt).tail.dropLast
        1 (0, 0) = (2, 121) := by
      show scanMax ((0:ℤ), (0:ℤ)) ((100:ℤ), (0:ℤ))
        [((20:ℤ), (10:ℤ)), (60, 11), (80, 5)] 1 (0, 0) = (2, 121)
      norm_num [scanMax, distance_point_line_sq, Prod.ext_iff]
    rw [rdpF_succ_split 4 _ 6 (by norm_num)
      (by rw [hscan0]; norm_num), hscan0]
    show (rdpF 4 [((0:ℤ), (0:ℤ)), (20, 10), (60, 11)] 6).dropLast
        ++ rdpF 4 [((60:ℤ), (11:ℤ)), (80, 5), (100, 0)] 6
      = [((0:ℤ), (0:ℤ)), (20, 10), (60, 11), (100, 0)]
    have hscanL : scanMax (headPt [((0:ℤ), (0:ℤ)), (20, 10), (60, 11)])
        (lastPt [((0:ℤ), (0:ℤ)), (20, 10), (60, 11)])
        ([((0:ℤ), (0:ℤ)), (20, 10), (60, 11)] : List Pt).tail.dropLast 1 (0, 0)
        = (1, 144400 / 3721) := by
      show scanMax ((0:ℤ), (0:ℤ)) ((60:ℤ), (11:ℤ)) [((20:ℤ), (10:ℤ))] 1 (0, 0)
        = (1, 144400 / 3721)
      norm_num [scanMax, distance_point_line_sq, Prod.ext_iff]
    have hL : rdpF 4 [((0:ℤ), (0:ℤ)), (20, 10), (60, 11)] 6
        = [((0:ℤ), (0:ℤ)), (20, 10), (60, 11)] := by
      rw [rdpF_succ_split 3 _ 6 (by norm_num) (by rw [hscanL]; norm_num), hscanL]
      show (rdpF 3 [((0:ℤ), (0:ℤ)), (20, 10)] 6).dropLast
          ++ rdpF 3 [((20:ℤ), (10:ℤ)), (60, 11)] 6
        = [((0:ℤ), (0:ℤ)), (20, 10), (60, 11)]
      rw [rdpF_succ_short 2 _ 6 (by norm_num), rdpF_succ_short 2 _ 6 (by norm_num)]
      rfl
    have hscanR : scanMax (headPt [((60:ℤ), (11:ℤ)), (80, 5), (100, 0)])
        (lastPt [((60:ℤ), (11:ℤ)), (80, 5), (100, 0)])
        ([((60:ℤ), (11:ℤ)), (80, 5), (100, 0)] : List Pt).tail.dropLast 1 (0, 0)
        = (1, 400 / 1721) := by
      show scanMax ((60:ℤ), (11:ℤ)) ((100:ℤ), (0:ℤ)) [((80:ℤ), (5:ℤ))] 1 (0, 0)
        = (1, 400 / 1721)
      norm_num [scanMax, distance_point_line_sq, Prod.ext_iff]
    have hR : rdpF 4 [((60:ℤ), (11:ℤ)), (80, 5), (100, 0)] 6
        = [((60:ℤ), (11:ℤ)), (100, 0)] := by
      rw [rdpF_succ_collapse 3 _ 6 (by norm_num) (by rw [hscanR]; norm_num)]
      rfl
    rw [hL, hR]
    rfl

/-- Claim C1 (amended): at extraction time every persisted Region has at
least 4 vertices and a `vertices` count equal to its polygon length; a
simplification pass keeps `vertices` in sync with the polygon and keeps at
least the two endpoints of every (at-least-2-vertex) polygon — but it can
reduce the vertex count below 4 (see the counterexample), so the ≥ 4
invariant holds only for the extraction output, not after simplification
passes. -/
theorem persisted_region_vertices (total : ℚ) (cs : List Contour) (d : Dataset) (eps : ℚ)
    (hd2 : ∀ r ∈ d.extractedRegions, 2 ≤ r.polygon.length) :
    (∀ r ∈ (extract_boundaries total cs).extractedRegions,
      4 ≤ r.polygon.length ∧ r.vertices = r.polygon.length) ∧
    (∀ r ∈ (simplify_regions d eps).extractedRegions,
      2 ≤ r.polygon.length ∧ r.vertices = r.polygon.length) := by
  constructor
  · intro r hr
    simp only [extract_boundaries] at hr
    rcases mem_renumber 1 _ r hr with ⟨z, hz, hpoly, _, _, hvert⟩
    rcases classifyAll_props total cs z ((mem_sortRegs z _).mp hz) with ⟨h4, hsync, _⟩
    constructor
    · rw [hpoly]; exact h4
    · rw [hvert, hsync, hpoly]
  · intro r' hr'
    simp only [simplify_regions, List.mem_map] at hr'
    rcases hr' with ⟨r, hr, rfl⟩
    have h2 := hd2 r hr
    have hne : r.polygon ≠ [] := by
      intro he; rw [he] at h2; simp at h2
    rw [simplifyRegion_of_ne_nil eps r hne]
    exact ⟨rdp_two_le r.polygon eps h2, rfl⟩

/-- Witness for C1 (amended) at a concrete input. -/
theorem persisted_region_vertices_witness :
    (∀ r ∈ (extract_boundaries 10000 []).extractedRegions,
      4 ≤ r.polygon.length ∧ r.vertices = r.polygon.length) ∧
    (∀ r ∈ (simplify_regions
        ⟨[⟨1, [((0:ℤ), (0:ℤ)), (2, 5), (5, 5), (7, 0)], (3, 3), 20, 4⟩], none, 10, 10,
          "Map/Real Boundary.png", none⟩ 0).extractedRegions,
      2 ≤ r.polygon.length ∧ r.vertices = r.polygon.length) :=
  persisted_region_vertices 10000 []
    ⟨[⟨1, [((0:ℤ), (0:ℤ)), (2, 5), (5, 5), (7, 0)], (3, 3), 20, 4⟩], none, 10, 10,
      "Map/Real Boundary.png", none⟩ 0 (by decide)

/-- Claim C1, counterexample: a persisted Region with exactly 4 vertices
(legal extraction output) is reduced by one simplification pass with
`epsilon = 50 ≥ 0` to a 2-vertex polygon, with `vertices = 2 < 4` written
back to the dataset. -/
theorem simplify_drops_below_four_vertices :
    (simplify_regions ⟨[⟨1, [((0:ℤ), (0:ℤ)), (1, 1), (2, 0), (3, 1)], (1, 0), 4, 4⟩],
        none, 100, 100, "Map/Real Boundary.png", none⟩ 50).extractedRegions.map
      (fun r => r.vertices) = [2] ∧
    (simplify_regions ⟨[⟨1, [((0:ℤ), (0:ℤ)), (1, 1), (2, 0), (3, 1)], (1, 0), 4, 4⟩],
        none, 100, 100, "Map/Real Boundary.png", none⟩ 50).extractedRegions.map
      (fun r => r.polygon) = [[((0:ℤ), (0:ℤ)), (3, 1)]] ∧
    ¬ (∀ r ∈ (simplify_regions ⟨[⟨1, [((0:ℤ), (0:ℤ)), (1, 1), (2, 0), (3, 1)], (1, 0), 4, 4⟩],
        none, 100, 100, "Map/Real Boundary.png", none⟩ 50).extractedRegions,
      4 ≤ r.vertices) := by
  have hscan : scanMax (headPt [((0:ℤ), (0:ℤ)), (1, 1), (2, 0), (3, 1)])
      (lastPt [((0:ℤ), (0:ℤ)), (1, 1), (2, 0), (3, 1)])
      ([((0:ℤ), (0:ℤ)), (1, 1), (2, 0), (3, 1)] : List Pt).tail.dropLast 1 (0, 0)
      = (1, 2 / 5) := by
    show scanMax ((0:ℤ), (0:ℤ)) ((3:ℤ), (1:ℤ)) [((1:ℤ), (1:ℤ)), (2, 0)] 1 (0, 0) = (1, 2 / 5)
    norm_num [scanMax, distance_point_line_sq, Prod.ext_iff]
  have hrdp : rdp [((0:ℤ), (0:ℤ)), (1, 1), (2, 0), (3, 1)] 50 = [((0:ℤ), (0:ℤ)), (3, 1)] := by
    rw [← rdp_eq_rdpF 4 _ 50 (by norm_num),
      rdpF_succ_collapse 3 _ 50 (by norm_num) (by rw [hscan]; norm_num)]
    rfl
  have hmap1 : (simplify_regions ⟨[⟨1, [((0:ℤ), (0:ℤ)), (1, 1), (2, 0), (3, 1)], (1, 0), 4, 4⟩],
      none, 100, 100, "Map/Real Boundary.png", none⟩ 50).extractedRegions.map
      (fun r => r.vertices) = [2] := by
    simp [simplify_regions, simplifyRegion, hrdp, -Prod.mk_zero_zero, -Prod.mk_one_one]
  refine ⟨hmap1, ?_, ?_⟩
  · simp [simplify_regions, simplifyRegion, hrdp, -Prod.mk_zero_zero, -Prod.mk_one_one]
  · intro hall
    have hmem : ∀ v ∈ (simplify_regions ⟨[⟨1, [((0:ℤ), (0:ℤ)), (1, 1), (2, 0), (3, 1)],
        (1, 0), 4, 4⟩], none, 100, 100, "Map/Real Boundary.png", none⟩ 50).extractedRegions.map
        (fun r => r.vertices), 4 ≤ v := by
      intro v hv
      rcases List.mem_map.mp hv with ⟨r, hr, rfl⟩
      exact hall r hr
    rw [hmap1] at hmem
    have := hmem 2 (by simp)
    omega

/-- Claim C8 (amended): a simplification pass never modifies a region's
centroid, and it replaces the polygon by a subsequence of itself, so the
axis-aligned bounding box can only shrink; containment of the centroid in
the bounding box is NOT preserved by the pass (see the counterexample),
because the box can shrink away from the unchanged centroid. -/
theorem simplify_centroid_frame (d : Dataset) (eps : ℚ) (i : ℕ) (r : Region)
    (hr : d.extractedRegions[i]? = some r) :
    (simplify_regions d eps).extractedRegions[i]? = some (simplifyRegion eps r) ∧
    (simplifyRegion eps r).centroid = r.centroid ∧
    List.Sublist (simplifyRegion eps r).polygon r.polygon := by
  refine ⟨?_, simplifyRegion_centroid eps r, ?_⟩
  · show (d.extractedRegions.map (simplifyRegion eps))[i]? = some (simplifyRegion eps r)
    rw [List.getElem?_map, hr]
    rfl
  · by_cases h : r.polygon = []
    · rw [simplifyRegion_of_nil eps r h]
    · rw [simplifyRegion_of_ne_nil eps r h]
      simpa using rdp_sublist r.polygon eps

/-- Witness for C8 (amended) at a concrete input. -/
theorem simplify_centroid_frame_witness :
    (simplify_regions ⟨[⟨2, [], (4, 4), 9, 0⟩], none, 20, 20, "m", none⟩ 3).extractedRegions[0]?
      = some (simplifyRegion 3 ⟨2, [], (4, 4), 9, 0⟩) ∧
    (simplifyRegion 3 ⟨2, [], (4, 4), 9, 0⟩).centroid = (⟨2, [], (4, 4), 9, 0⟩ : Region).centroid ∧
    List.Sublist (simplifyRegion 3 ⟨2, [], (4, 4), 9, 0⟩).polygon
      (⟨2, [], (4, 4), 9, 0⟩ : Region).polygon :=
  simplify_centroid_frame ⟨[⟨2, [], (4, 4), 9, 0⟩], none, 20, 20, "m", none⟩ 3 0
    ⟨2, [], (4, 4), 9, 0⟩ rfl

/-- Claim C8, counterexample: a region whose centroid `(5,4)` lies inside
the bounding box of its 4-vertex polygon is simplified (with
`epsilon = 50`) to the 2-vertex polygon `[(0,0), (10,0)]`; the centroid is
left unchanged but now lies outside the simplified polygon's bounding box
— so the centroid-in-bounding-box property is not preserved by
simplification passes. -/
theorem centroid_escapes_bbox :
    inBBox (5, 4) [((0:ℤ), (0:ℤ)), (4, 9), (6, 9), (10, 0)] ∧
    (simplify_regions ⟨[⟨1, [((0:ℤ), (0:ℤ)), (4, 9), (6, 9), (10, 0)], (5, 4), 60, 4⟩],
        none, 100, 100, "Map/Real Boundary.png", none⟩ 50).extractedRegions.map
      (fun r => (r.centroid, r.polygon)) = [(((5:ℤ), (4:ℤ)), [((0:ℤ), (0:ℤ)), (10, 0)])] ∧
    ¬ inBBox (5, 4) [((0:ℤ), (0:ℤ)), (10, 0)] := by
  have hscan : scanMax (headPt [((0:ℤ), (0:ℤ)), (4, 9), (6, 9), (10, 0)])
      (lastPt [((0:ℤ), (0:ℤ)), (4, 9), (6, 9), (10, 0)])
      ([((0:ℤ), (0:ℤ)), (4, 9), (6, 9), (10, 0)] : List Pt).tail.dropLast 1 (0, 0)
      = (1, 81) := by
    show scanMax ((0:ℤ), (0:ℤ)) ((10:ℤ), (0:ℤ)) [((4:ℤ), (9:ℤ)), (6, 9)] 1 (0, 0) = (1, 81)
    norm_num [scanMax, distance_point_line_sq, Prod.ext_iff]
  have hrdp : rdp [((0:ℤ), (0:ℤ)), (4, 9), (6, 9), (10, 0)] 50
      = [((0:ℤ), (0:ℤ)), (10, 0)] := by
    rw [← rdp_eq_rdpF 4 _ 50 (by norm_num),
      rdpF_succ_collapse 3 _ 50 (by norm_num) (by rw [hscan]; norm_num)]
    rfl
  refine ⟨by decide, ?_, by decide⟩
  simp [simplify_regions, simplifyRegion, hrdp, -Prod.mk_zero_zero, -Prod.mk_one_one]

/-- Claim C2 (amended): a contour confirmed as CongregationBoundary by the
main (in-loop) path has area above 30% of the image, while every accepted
Region has area at most 15% — so (for a positive image area) no main-path
boundary contour can also appear among the regions; the fallback path,
however, can select a polygon that is also an accepted region (see the
counterexample). -/
theorem main_boundary_never_region (total : ℚ) (cs : List Contour) (c : Contour)
    (htotal : 0 < total) (hc : total * (3 / 10) < c.area) :
    c.area ∉ (extract_boundaries total cs).extractedRegions.map (fun r => r.area) := by
  intro hmem
  rcases List.mem_map.mp hmem with ⟨r, hr, harea⟩
  simp only [extract_boundaries] at hr
  rcases mem_renumber 1 _ r hr with ⟨z, hz, _, _, hza, _⟩
  rcases classifyAll_props total cs z ((mem_sortRegs z _).mp hz) with ⟨_, _, hle⟩
  have h1 : total * (3 / 20) < total * (3 / 10) := by
    apply mul_lt_mul_of_pos_left _ htotal
    norm_num
  have h2 : c.area ≤ total * (3 / 20) := by
    rw [← harea, hza]
    exact hle
  linarith

/-- Witness for C2 (amended) at a concrete input. -/
theorem main_boundary_never_region_witness :
    (1 : ℚ) ∉ (extract_boundaries 1 []).extractedRegions.map (fun r => r.area) :=
  main_boundary_never_region 1 [] ⟨1, 0, [], 0, 0, 0⟩ one_pos (by norm_num)

/-- Claim C2, counterexample: in a 100×100 image (`total = 10000`), a single
contour of area 1200 (12% of the image) is accepted as a Region (area is
within `[0.0005, 0.15] × total`), no contour exceeds the 30% threshold so
the in-loop boundary stays unset, and the fallback scan (area > 10% of
total, greatest perimeter) then selects that very contour — its polygon is
simultaneously the CongregationBoundary and the polygon of Region 1. -/
theorem fallback_boundary_is_also_region :
    (extract_boundaries 10000 [⟨1200, 200, [((0:ℤ), (0:ℤ)), (40, 0), (40, 30), (0, 30)],
        1200, 24000, 18000⟩]).congregationBoundary
      = some [((0:ℤ), (0:ℤ)), (40, 0), (40, 30), (0, 30)] ∧
    (extract_boundaries 10000 [⟨1200, 200, [((0:ℤ), (0:ℤ)), (40, 0), (40, 30), (0, 30)],
        1200, 24000, 18000⟩]).extractedRegions.map (fun r => r.polygon)
      = [[((0:ℤ), (0:ℤ)), (40, 0), (40, 30), (0, 30)]] := by
  constructor
  · norm_num [extract_boundaries, classifyAll, classifyStep, acceptRegion, fbStep,
      List.foldl]
  · norm_num [extract_boundaries, classifyAll, classifyStep, acceptRegion, sortRegs,
      insertReg, renumber, List.foldl]

/-- Claim C7: the `regionId` values of the extraction output form the
contiguous ascending sequence `1..N` in list order; the output is ordered
by descending area; and the stable sort orders the accepted regions by
strictly descending area with ties broken by acceptance order (the
pre-renumbering `regionId`, which is assigned in contour discovery
order). -/
theorem region_ids_contiguous_sorted (total : ℚ) (cs : List Contour) :
    (extract_boundaries total cs).extractedRegions.map (fun r => r.regionId)
      = List.range' 1 (extract_boundaries total cs).extractedRegions.length ∧
    List.Pairwise (fun a b : Region => b.area ≤ a.area)
      (extract_boundaries total cs).extractedRegions ∧
    List.Pairwise byAreaThenId (sortRegs (classifyAll total cs).regions) := by
  have hpair := sortRegs_pairwise _ (classifyAll_ids_pairwise total cs)
  refine ⟨?_, ?_, hpair⟩
  · show (renumber 1 (sortRegs (classifyAll total cs).regions)).map (fun r => r.regionId)
      = List.range' 1 (renumber 1 (sortRegs (classifyAll total cs).regions)).length
    rw [renumber_map_id, renumber_length]
  · show List.Pairwise (fun a b : Region => b.area ≤ a.area)
      (renumber 1 (sortRegs (classifyAll total cs).regions))
    apply renumber_pairwise_area
    refine hpair.imp ?_
    intro a b hab
    rcases hab with h | ⟨h, _⟩
    · exact le_of_lt h
    · exact le_of_eq h.symm
